import Mathlib

/-! LibOpenCIF: the syntax validator and the command model

A shallow embedding of the grammar engine (`CIFFSM`), of the validator
(`File::validateSintax`) and of the textual `read`/`print` of the command
classes, followed by the properties proved about them.

Conventions of the embedding:

* a byte is a `Fin 256`; a text (a `std::string`, the contents of a stream or
  of a file) is a `List Byte`;
* a state number is an `Int`, as in the source (`int`), and `-1` is the error
  marker;
* a value the C++ code leaves uninitialised is an explicit argument or an
  `Option` that is `none`.
-/

namespace OpenCIF

/-! ## Bytes and texts -/

/-- One byte of input. -/
abbrev Byte := Fin 256

/-- The bytes of a string literal (every literal used below is ASCII). -/
def bytes (s : String) : List Byte :=
  s.toList.map (fun c => Fin.ofNat c.toNat)

/-! ## state.hh: one transition table -/

/-- The class `State`: `int state_options[ 256 ]`. -/
structure State where
  state_options : Byte → Int

/-- Modelled from the spec: `State::reset` (state.cc is not among the sources), which
leaves every entry unset; "by default, every jump (transition) not configured is an
invalid transition", the sentinel being the error marker `-1`. -/
def State.reset : State :=
  ⟨fun _ => -1⟩

/-- Modelled from the spec: `State::addOptions` (state.cc is not among the sources),
"`set(byteOrClass, nextState)` installs one or many byte transitions": every
byte of `new_options` is sent to `exit_state`, the other entries are kept. -/
def State.addOptions (st : State) (new_options : List Byte) (exit_state : Int) : State :=
  ⟨fun b => if b ∈ new_options then exit_state else st.state_options b⟩

/-- Modelled from the spec: `State::operator[]` (state.cc is not among the sources), the
entry stored for a byte. -/
def State.get (st : State) (input_char : Byte) : Int :=
  st.state_options input_char

/-! ## The engine -/

/-- Modelled from the spec: the class `FiniteStateMachine` (its sources are not among the
files), "an ordered collection of TransitionTable indexed by state number 1..N
(N fixed at construction)", together with the current state, which starts at 1. -/
structure FiniteStateMachine where
  fsm_state_count : Int
  fsm_states : Int → State
  fsm_current_state : Int

namespace FiniteStateMachine

/-- Modelled from the spec: the constructor `FiniteStateMachine ( N )`: `N` empty tables,
current state 1. -/
def new (amount_states : Int) : FiniteStateMachine :=
  { fsm_state_count := amount_states
    fsm_states := fun _ => State.reset
    fsm_current_state := 1 }

/-- Modelled from the spec: `FiniteStateMachine::add ( input_state , chars , output_state )`
with a string of bytes: the table of `input_state`, when it is one of the tables
1..N, gets the transitions; nothing else changes. -/
def add (fsm : FiniteStateMachine) (input_state : Int) (input_chars : List Byte)
    (output_state : Int) : FiniteStateMachine :=
  if 1 ≤ input_state ∧ input_state ≤ fsm.fsm_state_count then
    { fsm with
      fsm_states := fun q =>
        if q = input_state then (fsm.fsm_states q).addOptions input_chars output_state
        else fsm.fsm_states q }
  else fsm

/-- Modelled from the spec: `next(currentState, byte) -> nextState|error`: the entry of the
table of `state` when `state` is one of 1..N; the error marker otherwise ("a
transition lookup for a byte with no configured entry yields the error marker;
this is the only error path"). -/
def next (fsm : FiniteStateMachine) (state : Int) (input_char : Byte) : Int :=
  if 1 ≤ state ∧ state ≤ fsm.fsm_state_count then (fsm.fsm_states state).get input_char
  else -1

/-- Modelled from the spec: `FiniteStateMachine::operator[]`, "feed one byte, get next state
or error": the lookup from the current state, which becomes the current state,
and is returned. -/
def feed (fsm : FiniteStateMachine) (input_char : Byte) : Int × FiniteStateMachine :=
  let jump := fsm.next fsm.fsm_current_state input_char
  (jump, { fsm with fsm_current_state := jump })

end FiniteStateMachine

/-! ## ciffsm.cc: the grammar -/

/-- The character groups of `CIFFSM::Transition`. -/
inductive Transition where
  | Digit
  | UpperChar
  | BlankChar
  | UserChar
  | CommentChar
  | SeparatorChar
  | LayerNameChar
  deriving DecidableEq, Repr

/-- The test `std::isdigit ( i )` in the "C" locale. -/
def isdigit (i : Nat) : Bool :=
  decide (48 ≤ i ∧ i ≤ 57)

/-- The test `std::isupper ( i )` in the "C" locale. -/
def isupper (i : Nat) : Bool :=
  decide (65 ≤ i ∧ i ≤ 90)

/-- The loop `for ( int i = lo; i < hi; i++ ) if ( keep ( i ) ) add ( input_state ,
std::string ( char ( i ) ) , output_state );` of `CIFFSM::add`. -/
def addLoop (fsm : FiniteStateMachine) (input_state : Int) (lo hi : Nat)
    (keep : Nat → Bool) (output_state : Int) : FiniteStateMachine :=
  (List.range' lo (hi - lo)).foldl
    (fun m i => if keep i then m.add input_state [Fin.ofNat i] output_state else m) fsm

namespace CIFFSM

/-- The case `Digit` of `CIFFSM::add`: `i` from '0' to '9', both included. -/
def addDigit (fsm : FiniteStateMachine) (input_state output_state : Int) :
    FiniteStateMachine :=
  addLoop fsm input_state 48 58 (fun _ => true) output_state

/-- The case `UpperChar` of `CIFFSM::add`: `i` from 'A' to 'Z', both included. -/
def addUpperChar (fsm : FiniteStateMachine) (input_state output_state : Int) :
    FiniteStateMachine :=
  addLoop fsm input_state 65 91 (fun _ => true) output_state

/-- The case `BlankChar` of `CIFFSM::add`. -/
def addBlankChar (fsm : FiniteStateMachine) (input_state output_state : Int) :
    FiniteStateMachine :=
  addLoop fsm input_state 0 256
    (fun i => !(isdigit i || isupper i || i == 45 || i == 40 || i == 41 || i == 59))
    output_state

/-- The function `CIFFSM::add ( input_state , input_chars , output_state )` for a group of
characters. `SeparatorChar` and `LayerNameChar` call `add` again with two
groups. -/
def add (fsm : FiniteStateMachine) (input_state : Int) (input_chars : Transition)
    (output_state : Int) : FiniteStateMachine :=
  match input_chars with
  | .Digit => addDigit fsm input_state output_state
  | .UpperChar => addUpperChar fsm input_state output_state
  | .BlankChar => addBlankChar fsm input_state output_state
  | .UserChar => addLoop fsm input_state 0 256 (fun i => i != 59) output_state
  | .CommentChar =>
      addLoop fsm input_state 0 256 (fun i => !(i == 40 || i == 40)) output_state
  | .SeparatorChar =>
      addBlankChar (addUpperChar fsm input_state output_state) input_state output_state
  | .LayerNameChar =>
      addUpperChar (addDigit fsm input_state output_state) input_state output_state

/-- One call `add ( input_state , input_chars , output_state )` of the constructor, with a
group of characters or with a string. -/
inductive Call where
  | group (input_state : Int) (input_chars : Transition) (output_state : Int)
  | str (input_state : Int) (input_chars : String) (output_state : Int)

/-- The calls of `add` in the constructor `CIFFSM::CIFFSM`, in the order of the source. -/
def calls : List Call :=
  [ Call.group 1 .BlankChar 1, Call.str 1 "P" 2, Call.str 1 "B" 14, Call.str 1 "R" 31,
    Call.str 1 "W" 40, Call.str 1 "L" 54, Call.str 1 "D" 57, Call.str 1 "C" 70,
    Call.group 1 .Digit 88, Call.str 1 "(" 89,
    -- polygon states
    Call.group 2 .BlankChar 2, Call.str 2 "-" 3, Call.group 2 .Digit 4,
    Call.group 3 .Digit 4,
    Call.group 4 .Digit 4, Call.group 4 .SeparatorChar 5,
    Call.group 5 .SeparatorChar 5, Call.str 5 "-" 6, Call.group 5 .Digit 7,
    Call.group 6 .Digit 7,
    Call.group 7 .Digit 7, Call.group 7 .SeparatorChar 8, Call.str 7 ";" 1,
    Call.group 8 .SeparatorChar 8, Call.str 8 "-" 9, Call.group 8 .Digit 10,
    Call.str 8 ";" 1,
    Call.group 9 .Digit 10,
    Call.group 10 .Digit 10, Call.group 10 .SeparatorChar 11,
    Call.group 11 .SeparatorChar 11, Call.str 11 "-" 12, Call.group 11 .Digit 13,
    Call.group 12 .Digit 13,
    Call.group 13 .SeparatorChar 7, Call.group 13 .Digit 13, Call.str 13 ";" 1,
    -- box states
    Call.group 14 .BlankChar 14, Call.group 14 .Digit 15,
    Call.group 15 .Digit 15, Call.group 15 .SeparatorChar 16,
    Call.group 16 .SeparatorChar 16, Call.group 16 .Digit 17,
    Call.group 17 .Digit 17, Call.group 17 .SeparatorChar 18,
    Call.group 18 .SeparatorChar 18, Call.str 18 "-" 19, Call.group 18 .Digit 20,
    Call.group 19 .Digit 20,
    Call.group 20 .Digit 20, Call.group 20 .SeparatorChar 21,
    Call.group 21 .SeparatorChar 21, Call.str 21 "-" 22, Call.group 21 .Digit 23,
    Call.group 22 .Digit 23,
    Call.group 23 .Digit 23, Call.group 23 .SeparatorChar 24, Call.str 23 ";" 1,
    Call.group 24 .SeparatorChar 24, Call.str 24 "-" 25, Call.group 24 .Digit 26,
    Call.str 24 ";" 1,
    Call.group 25 .Digit 26,
    Call.group 26 .Digit 26, Call.group 26 .SeparatorChar 27,
    Call.group 27 .SeparatorChar 27, Call.str 27 "-" 28, Call.group 27 .Digit 29,
    Call.group 28 .Digit 29,
    Call.group 29 .Digit 29, Call.group 29 .SeparatorChar 30, Call.str 29 ";" 1,
    Call.group 30 .SeparatorChar 30, Call.str 30 ";" 1 ]

/-- Performs one call of `add` of the constructor. -/
def call (fsm : FiniteStateMachine) (c : Call) : FiniteStateMachine :=
  match c with
  | .group input_state input_chars output_state =>
      add fsm input_state input_chars output_state
  | .str input_state input_chars output_state =>
      fsm.add input_state (bytes input_chars) output_state

/-- The constructor `CIFFSM::CIFFSM`: `FiniteStateMachine ( 89 )`, then the calls of `add`. -/
@[irreducible]
def new : FiniteStateMachine :=
  calls.foldl call (FiniteStateMachine.new 89)

end CIFFSM

/-! ## file.cc: the validator -/

/-- The values of `File::LoadStatus` that `file.cc` returns. -/
inductive LoadStatus where
  | AllOk
  | CantOpenInputFile
  | IncorrectInputFile
  | IncompleteInputFile
  deriving DecidableEq, Repr

/-- The local variables of `File::validateSintax`. `previous_state` and `input_char`
are not initialised by the source: `none` until they are assigned.
`lookups` is not in the source: it counts the calls of `fsm->operator[]`. -/
structure Locals where
  fsm : FiniteStateMachine
  jump_state : Int
  previous_state : Option Int
  input_char : Option Byte
  lookups : Nat

/-- The loop `while ( !file_input.eof () && jump_state != -1 )` of `validateSintax` over
the bytes still to be read from the file. When the file is exhausted, `get ()`
meets the end of the file, `input_char` receives its result, which is no byte
of the file (`none`), and `eof ()` ends the loop. -/
def validateLoop : List Byte → Locals → Locals
  | [], v => if v.jump_state = -1 then v else { v with input_char := none }
  | c :: rest, v =>
      if v.jump_state = -1 then v
      else
        validateLoop rest
          { fsm := (v.fsm.feed c).2
            jump_state := (v.fsm.feed c).1
            previous_state := some v.jump_state
            input_char := some c
            lookups := v.lookups + 1 }

/-- What `File::validateSintax` returns and reports: the status, and for an invalid
input the state and the character printed in the messages ("State: ",
"Input char: "). `jump_state` is the value of the local variable when the
function returns, `lookups` the number of calls of `fsm->operator[]`. -/
structure Outcome where
  status : LoadStatus
  message_state : Option Int
  message_char : Option Byte
  jump_state : Int
  lookups : Nat
  deriving DecidableEq

/-- The function `File::validateSintax` on a file already opened, with contents `file`. -/
def validateSintax (file : List Byte) : Outcome :=
  let v := validateLoop file
    { fsm := CIFFSM.new, jump_state := 1, previous_state := none, input_char := none,
      lookups := 0 }
  if v.jump_state = -1 then
    { status := .IncorrectInputFile, message_state := v.previous_state,
      message_char := v.input_char, jump_state := v.jump_state, lookups := v.lookups }
  else if v.jump_state ≠ 91 ∧ v.jump_state ≠ 92 then
    { status := .IncompleteInputFile, message_state := none, message_char := none,
      jump_state := v.jump_state, lookups := v.lookups }
  else
    { status := .AllOk, message_state := none, message_char := none,
      jump_state := v.jump_state, lookups := v.lookups }

/-! ## Streams of the standard library

The command classes read from a `std::istream` and print to a `std::ostream`. These
are not code of the repository: the definitions below follow the C++ standard for
the formatted extraction and insertion of words and of integers in the "C"
locale, with `long` of 64 bits. -/

/-- The largest `long int` (64 bits). -/
def LONG_MAX : Int := 9223372036854775807

/-- The smallest `long int` (64 bits). -/
def LONG_MIN : Int := -9223372036854775808

/-- The largest `unsigned long int` (64 bits). -/
def ULONG_MAX : Nat := 18446744073709551615

/-- The test `std::isspace` in the "C" locale: space, and the bytes 9 to 13. -/
def isspace (b : Byte) : Bool :=
  decide (b.val = 32 ∨ (9 ≤ b.val ∧ b.val ≤ 13))

/-- Whether a byte is a decimal digit. -/
def isDigitByte (b : Byte) : Bool :=
  isdigit b.val

/-- An input stream: the bytes not yet extracted, and whether `failbit` is set. -/
structure IStream where
  buf : List Byte
  fail : Bool
  deriving DecidableEq

/-- The stream `std::istringstream ( str )`. -/
def IStream.ofString (str : List Byte) : IStream :=
  { buf := str, fail := false }

/-- The extraction `stream >> word` of a `std::string`: nothing happens on a failed
stream; white space is skipped; when no byte is left the stream fails and the
word is untouched; otherwise the word becomes the bytes up to the next white
space. -/
def IStream.readWord (stream : IStream) (word : List Byte) : IStream × List Byte :=
  if stream.fail then (stream, word)
  else
    match stream.buf.dropWhile isspace with
    | [] => ({ buf := [], fail := true }, word)
    | c :: rest =>
        ({ buf := (c :: rest).dropWhile (fun b => !isspace b), fail := false },
          (c :: rest).takeWhile (fun b => !isspace b))

/-- The number a sequence of decimal digits denotes. -/
def digitsValue (ds : List Byte) : Nat :=
  ds.foldl (fun v d => 10 * v + (d.val - 48)) 0

/-- An optional sign before a number: whether it is '-', and the bytes after it. -/
def takeSign : List Byte → Bool × List Byte
  | c :: rest => if c.val = 45 then (true, rest) else if c.val = 43 then (false, rest)
      else (false, c :: rest)
  | [] => (false, [])

/-- The extraction `stream >> x` of a `long int`: nothing happens on a failed stream;
white space is skipped; when no byte is left the stream fails and `x` is
untouched; otherwise an optional sign and the digits that follow are consumed:
without a digit the stream fails and `x` becomes 0, a value out of the range of
`long int` makes the stream fail and `x` the nearest bound. -/
def IStream.readLong (stream : IStream) (x : Int) : IStream × Int :=
  if stream.fail then (stream, x)
  else
    match stream.buf.dropWhile isspace with
    | [] => ({ buf := [], fail := true }, x)
    | c :: rest =>
        let signed := takeSign (c :: rest)
        let ds := signed.2.takeWhile isDigitByte
        let after := signed.2.dropWhile isDigitByte
        let v : Int := if signed.1 then -(digitsValue ds : Int) else (digitsValue ds : Int)
        if ds = [] then ({ buf := after, fail := true }, 0)
        else if v > LONG_MAX then ({ buf := after, fail := true }, LONG_MAX)
        else if v < LONG_MIN then ({ buf := after, fail := true }, LONG_MIN)
        else ({ buf := after, fail := false }, v)

/-- The extraction `stream >> x` of an `unsigned long int`: as for `long int`, but a
value above the largest `unsigned long int` makes the stream fail and `x` that
bound, and a value with a '-' in range is negated modulo 2^64. -/
def IStream.readULong (stream : IStream) (x : Nat) : IStream × Nat :=
  if stream.fail then (stream, x)
  else
    match stream.buf.dropWhile isspace with
    | [] => ({ buf := [], fail := true }, x)
    | c :: rest =>
        let signed := takeSign (c :: rest)
        let ds := signed.2.takeWhile isDigitByte
        let after := signed.2.dropWhile isDigitByte
        let v := digitsValue ds
        if ds = [] then ({ buf := after, fail := true }, 0)
        else if v > ULONG_MAX then ({ buf := after, fail := true }, ULONG_MAX)
        else
          ({ buf := after, fail := false },
            if signed.1 then (ULONG_MAX + 1 - v) % (ULONG_MAX + 1) else v)

/-- The decimal digits of `n` put before `acc`, least significant digit first computed;
`fuel` bounds the number of digits. -/
def printDigits : Nat → Nat → List Byte → List Byte
  | 0, _, acc => acc
  | fuel + 1, n, acc =>
      if n / 10 = 0 then Fin.ofNat (48 + n % 10) :: acc
      else printDigits fuel (n / 10) (Fin.ofNat (48 + n % 10) :: acc)

/-- The insertion `stream << n` of an `unsigned long int`: its decimal digits. -/
def printULong (n : Nat) : List Byte :=
  printDigits (n + 1) n []

/-- The insertion `stream << x` of a `long int`: a '-' for a negative value, and the
decimal digits of the absolute value. -/
def printLong (x : Int) : List Byte :=
  if x < 0 then (45 : Byte) :: printULong x.natAbs else printULong x.natAbs

/-! ## Point and Size -/

/-- Modelled from the spec: the class `Point` (point.hh is not among the sources), "two signed
integers (x, y)". -/
structure Point where
  x : Int
  y : Int
  deriving DecidableEq, Repr

/-- Modelled from the spec: the class `Size` (size.hh is not among the sources), "two
non-negative integers (width, height)". -/
structure Size where
  width : Nat
  height : Nat
  deriving DecidableEq, Repr

/-- Modelled from the spec: the extraction of a `Point` (point.cc is not among the sources),
an "`x y` token pair": two `long int` extracted one after the other. -/
def Point.read (stream : IStream) (p : Point) : IStream × Point :=
  let rx := stream.readLong p.x
  let ry := rx.1.readLong p.y
  (ry.1, { x := rx.2, y := ry.2 })

/-- Modelled from the spec: the insertion of a `Point` (point.cc is not among the sources): the
two integers in decimal, one space between them. -/
def Point.print (p : Point) : List Byte :=
  printLong p.x ++ bytes " " ++ printLong p.y

/-- Modelled from the spec: the extraction of a `Size` (size.cc is not among the sources), an
"`x y` token pair": two `unsigned long int` extracted one after the other. -/
def Size.read (stream : IStream) (s : Size) : IStream × Size :=
  let rw := stream.readULong s.width
  let rh := rw.1.readULong s.height
  (rh.1, { width := rw.2, height := rh.2 })

/-- Modelled from the spec: the insertion of a `Size` (size.cc is not among the sources): the
two integers in decimal, one space between them. -/
def Size.print (s : Size) : List Byte :=
  printULong s.width ++ bytes " " ++ printULong s.height

/-! ## The commands -/

/-- The values of `command_type` that the sources assign. -/
inductive CommandType where
  | PositionBased
  | PathBased
  | Box
  | DefinitionDelete
  deriving DecidableEq, Repr

/-- The class `BoxCommand`: the type and the position of `PositionBasedCommand`, the size
and the rotation. -/
structure BoxCommand where
  command_type : CommandType
  command_position : Point
  box_size : Size
  box_rotation : Point
  deriving DecidableEq, Repr

/-- What the local variables `position`, `size`, `x` and `y` of `BoxCommand::read` hold
before the extraction: `x` and `y` are not initialised, `position` and `size` are
what the default constructors of `Point` and `Size` (not among the sources)
leave. -/
structure BoxLocals where
  position : Point
  size : Size
  x : Int
  y : Int

namespace BoxCommand

/-- The function `BoxCommand::print`. -/
def print (command : BoxCommand) : List Byte :=
  bytes "B " ++ command.box_size.print ++ bytes " " ++ command.command_position.print ++
    bytes " " ++ command.box_rotation.print ++ bytes " ;"

/-- The function `BoxCommand::read`. -/
def read (command : BoxCommand) (input_stream : IStream) (locals : BoxLocals) :
    BoxCommand × IStream :=
  -- input_stream >> word >> size >> position;
  let r1 := input_stream.readWord []
  let r2 := Size.read r1.1 locals.size
  let r3 := Point.read r2.1 locals.position
  -- input_stream >> word;
  let r4 := r3.1.readWord r1.2
  if r4.2 ≠ bytes ";" then
    let rx := (IStream.ofString r4.2).readLong locals.x
    let ry := r4.1.readLong locals.y
    ({ command with
        box_rotation := { x := rx.2, y := ry.2 }
        command_position := r3.2
        box_size := r2.2 }, ry.1)
  else
    ({ command with
        box_rotation := { x := 1, y := 0 }
        command_position := r3.2
        box_size := r2.2 }, r4.1)

end BoxCommand

/-- The constructor `BoxCommand ( void )`: the type `Box` and the neutral rotation (1, 0);
`position` and `size` are what the default constructors of `Point` and `Size`
(not among the sources) leave. -/
def BoxCommand.new (position : Point) (size : Size) : BoxCommand :=
  { command_type := .Box, command_position := position, box_size := size,
    box_rotation := { x := 1, y := 0 } }

/-- The constructor `BoxCommand ( str_command )`: the type `Box`, then `read` from the
string; the members start as the default constructors leave them (`locals` holds
what a default-constructed `Point` and `Size` are, and the uninitialised `x` and
`y` of `read`). -/
def BoxCommand.ofString (str_command : List Byte) (locals : BoxLocals) : BoxCommand :=
  (BoxCommand.read
    { command_type := .Box, command_position := locals.position, box_size := locals.size,
      box_rotation := locals.position }
    (IStream.ofString str_command) locals).1

/-- The class `DefinitionDeleteCommand`: the type, and the ID of `Command`. -/
structure DefinitionDeleteCommand where
  command_type : CommandType
  command_id : Nat
  deriving DecidableEq, Repr

namespace DefinitionDeleteCommand

/-- The function `DefinitionDeleteCommand::print`. -/
def print (command : DefinitionDeleteCommand) : List Byte :=
  bytes "D D " ++ printULong command.command_id ++ bytes " ;"

/-- The function `DefinitionDeleteCommand::read`; `id` is what the local variable `id`,
not initialised, holds before the extraction. -/
def read (command : DefinitionDeleteCommand) (input_stream : IStream) (id : Nat) :
    DefinitionDeleteCommand × IStream :=
  -- input_stream >> word >> word >> id;
  let r1 := input_stream.readWord []
  let r2 := r1.1.readWord r1.2
  let r3 := r2.1.readULong id
  ({ command with command_id := r3.2 }, r3.1)

/-- The constructor `DefinitionDeleteCommand ( str_command )`; `command_id` is what the
constructor of `Command` (not among the sources) leaves in the ID. -/
def ofString (str_command : List Byte) (command_id id : Nat) : DefinitionDeleteCommand :=
  (read { command_type := .DefinitionDelete, command_id := command_id }
    (IStream.ofString str_command) id).1

end DefinitionDeleteCommand

/-! ## Canonical texts -/

/-- The text "B w h x y ;": a box without rotation, single spaces between the tokens. -/
def boxText (w h : Nat) (x y : Int) : List Byte :=
  bytes "B " ++ printULong w ++ bytes " " ++ printULong h ++ bytes " " ++ printLong x ++
    bytes " " ++ printLong y ++ bytes " ;"

/-- The text "B w h x y rx ry ;": a box with its rotation, single spaces between the
tokens. -/
def boxRotationText (w h : Nat) (x y rx ry : Int) : List Byte :=
  bytes "B " ++ printULong w ++ bytes " " ++ printULong h ++ bytes " " ++ printLong x ++
    bytes " " ++ printLong y ++ bytes " " ++ printLong rx ++ bytes " " ++ printLong ry ++
    bytes " ;"

/-- The text "D D n ;". -/
def definitionDeleteText (n : Nat) : List Byte :=
  bytes "D D " ++ printULong n ++ bytes " ;"

/-- The text " x1 y1 x2 y2 ... xn yn" of a list of points, a single space before every
integer. -/
def pointsText : List Point → List Byte
  | [] => []
  | p :: ps => bytes " " ++ printLong p.x ++ bytes " " ++ printLong p.y ++ pointsText ps

/-- The text "P x1 y1 x2 y2 ... xn yn ;" of a polygon, single spaces between the
tokens. -/
def polygonText (points : List Point) : List Byte :=
  bytes "P" ++ pointsText points ++ bytes " ;"

/-- One or more bytes of white space. -/
def isSeparation (s : List Byte) : Prop :=
  s ≠ [] ∧ ∀ b ∈ s, isspace b = true

/-- The text of a box without rotation where the tokens "B", w, h, x, y and ";" are
separated by the bytes `s1`, ..., `s5` instead of single spaces. -/
def boxTextSpaced (s1 s2 s3 s4 s5 : List Byte) (w h : Nat) (x y : Int) : List Byte :=
  bytes "B" ++ s1 ++ printULong w ++ s2 ++ printULong h ++ s3 ++ printLong x ++ s4 ++
    printLong y ++ s5 ++ bytes ";"

/-- The text of a box with its rotation where the tokens "B", w, h, x, y, rx, ry and ";"
are separated by the bytes `s1`, ..., `s7` instead of single spaces. -/
def boxRotationTextSpaced (s1 s2 s3 s4 s5 s6 s7 : List Byte) (w h : Nat) (x y rx ry : Int) :
    List Byte :=
  bytes "B" ++ s1 ++ printULong w ++ s2 ++ printULong h ++ s3 ++ printLong x ++ s4 ++
    printLong y ++ s5 ++ printLong rx ++ s6 ++ printLong ry ++ s7 ++ bytes ";"

/-! ## The transition function in closed form -/

/-- Whether a byte belongs to a group of characters, that is, whether `CIFFSM::add` with
that group reaches the byte: the bounds and the tests of the loops of `add`. -/
def Transition.member : Transition → Byte → Bool
  | .Digit, b => decide (48 ≤ b.val ∧ b.val < 58)
  | .UpperChar, b => decide (65 ≤ b.val ∧ b.val < 91)
  | .BlankChar, b =>
      !(isdigit b.val || isupper b.val || b.val == 45 || b.val == 40 || b.val == 41 ||
        b.val == 59)
  | .UserChar, b => b.val != 59
  | .CommentChar, b => !(b.val == 40 || b.val == 40)
  | .SeparatorChar, b =>
      decide (65 ≤ b.val ∧ b.val < 91) ||
        !(isdigit b.val || isupper b.val || b.val == 45 || b.val == 40 || b.val == 41 ||
          b.val == 59)
  | .LayerNameChar, b =>
      decide (48 ≤ b.val ∧ b.val < 58) || decide (65 ≤ b.val ∧ b.val < 91)

/-- The state a call of `add` configures. -/
def CIFFSM.Call.input_state : CIFFSM.Call → Int
  | .group input_state _ _ => input_state
  | .str input_state _ _ => input_state

/-- The state a call of `add` sends its bytes to. -/
def CIFFSM.Call.output_state : CIFFSM.Call → Int
  | .group _ _ output_state => output_state
  | .str _ _ output_state => output_state

/-- Whether a call of `add` configures a transition for the byte. -/
def CIFFSM.Call.covers : CIFFSM.Call → Byte → Bool
  | .group _ input_chars _, b => input_chars.member b
  | .str _ input_chars _, b => decide (b ∈ bytes input_chars)

/-- The entry `(q, b)` after the calls `l` (the last call that covers it wins) on an
engine of `n` states where the entry was `entry` before. -/
def entryAfter (n : Int) (q : Int) (b : Byte) (l : List CIFFSM.Call) (entry : Int) : Int :=
  l.foldl
    (fun e c => if q = c.input_state ∧ 1 ≤ q ∧ q ≤ n ∧ c.covers b = true then c.output_state
      else e)
    entry

/-- The transition function of the grammar in closed form: the entry `(q, b)` that the
calls of the constructor leave in an engine of 89 states, all of whose entries
were unset. -/
def delta (q : Int) (b : Byte) : Int :=
  entryAfter 89 q b CIFFSM.calls (-1)

/-- The state reached from `q` by looking up the bytes of `s` one after the other; the
error marker has no table, so it stays once it is met. -/
def reached (q : Int) (s : List Byte) : Int :=
  s.foldl delta q

/-- An engine with its current state set to `q`. -/
def FiniteStateMachine.inState (fsm : FiniteStateMachine) (q : Int) : FiniteStateMachine :=
  { fsm with fsm_current_state := q }

/-- The loop of `validateSintax` with a transition function `d` for the lookups: the
values of `jump_state`, `previous_state`, `input_char` and the number of lookups
when the loop ends. -/
def scan (d : Int → Byte → Int) : List Byte → Int → Option Int → Option Byte → Nat →
    Int × Option Int × Option Byte × Nat
  | [], j, p, c, n => if j = -1 then (j, p, c, n) else (j, p, none, n)
  | b :: rest, j, p, c, n =>
      if j = -1 then (j, p, c, n) else scan d rest (d j b) (some j) (some b) (n + 1)

/-- The function `validateSintax` with the closed form `delta` for the lookups. -/
def validateClosed (file : List Byte) : Outcome :=
  let r := scan delta file 1 none none 0
  if r.1 = -1 then
    { status := .IncorrectInputFile, message_state := r.2.1, message_char := r.2.2.1,
      jump_state := r.1, lookups := r.2.2.2 }
  else if r.1 ≠ 91 ∧ r.1 ≠ 92 then
    { status := .IncompleteInputFile, message_state := none, message_char := none,
      jump_state := r.1, lookups := r.2.2.2 }
  else
    { status := .AllOk, message_state := none, message_char := none,
      jump_state := r.1, lookups := r.2.2.2 }

/-- The state the engine of the constructor reaches from `q` when it looks up the bytes of
`s` one after the other. -/
def run (q : Int) (s : List Byte) : Int :=
  s.foldl CIFFSM.new.next q

/-- The byte at position `i` of `s` has no configured transition from the state reached
by the bytes before it. -/
def noTransition (s : List Byte) (i : Nat) : Prop :=
  ∃ h : i < s.length, CIFFSM.new.next (run 1 (s.take i)) (s.get ⟨i, h⟩) = -1

/-- The position `i` is the first byte of `s` with no configured transition. -/
def firstInvalid (s : List Byte) (i : Nat) : Prop :=
  noTransition s i ∧ ∀ j, j < i → ¬ noTransition s j

/-- In the states of the list, every digit leads to the state given with them. -/
def digitSteps (l : List (Int × Int)) : Prop :=
  ∀ p ∈ l, ∀ b : Byte, isDigitByte b = true → delta p.1 b = p.2

/-- The calls of the constructor that configure the state `q`, in the order of the
source. -/
def callsOf (q : Int) : List CIFFSM.Call :=
  CIFFSM.calls.filter (fun c => decide (c.input_state = q))

/-- The transition function computed from the calls that configure the state alone. -/
def deltaOf (q : Int) (b : Byte) : Int :=
  entryAfter 89 q b (callsOf q) (-1)

/-- The number of integers written in a text: the number of its maximal runs of decimal
digits; `inside` tells whether the byte before was a digit. -/
def countIntegers : Bool → List Byte → Nat
  | _, [] => 0
  | inside, b :: rest =>
      if isDigitByte b then (if inside then 0 else 1) + countIntegers true rest
      else countIntegers false rest

namespace FiniteStateMachine

theorem next_new_empty (n q : Int) (b : Byte) : (new n).next q b = -1 := by
  simp [next, new, State.get, State.reset]

theorem add_chars_state_count (fsm : FiniteStateMachine) (s t : Int) (cs : List Byte) :
    (fsm.add s cs t).fsm_state_count = fsm.fsm_state_count := by
  unfold add; split <;> rfl

theorem add_chars_current_state (fsm : FiniteStateMachine) (s t : Int) (cs : List Byte) :
    (fsm.add s cs t).fsm_current_state = fsm.fsm_current_state := by
  unfold add; split <;> rfl

theorem next_add_chars (fsm : FiniteStateMachine) (s t q : Int) (cs : List Byte) (b : Byte) :
    (fsm.add s cs t).next q b =
      if q = s ∧ 1 ≤ q ∧ q ≤ fsm.fsm_state_count ∧ b ∈ cs then t else fsm.next q b := by
  unfold add next
  by_cases hs : 1 ≤ s ∧ s ≤ fsm.fsm_state_count
  · by_cases hq : q = s
    · subst hq
      by_cases hb : b ∈ cs <;> simp [hs, hb, State.get, State.addOptions]
    · simp [hs, hq]
  · by_cases hq : q = s
    · subst hq
      have : ¬ (q = q ∧ 1 ≤ q ∧ q ≤ fsm.fsm_state_count ∧ b ∈ cs) := by
        intro h; exact hs ⟨h.2.1, h.2.2.1⟩
      rw [if_neg this, if_neg hs, if_neg hs]
    · simp [hs, hq]

end FiniteStateMachine

theorem foldl_add_state_count (s t : Int) (keep : Nat → Bool) (l : List Nat)
    (fsm : FiniteStateMachine) :
    (l.foldl (fun m i => if keep i then m.add s [Fin.ofNat i] t else m) fsm).fsm_state_count
      = fsm.fsm_state_count := by
  induction l generalizing fsm with
  | nil => rfl
  | cons i l ih =>
    rw [List.foldl_cons, ih]
    split
    · exact FiniteStateMachine.add_chars_state_count fsm s t _
    · rfl

theorem foldl_add_current_state (s t : Int) (keep : Nat → Bool) (l : List Nat)
    (fsm : FiniteStateMachine) :
    (l.foldl (fun m i => if keep i then m.add s [Fin.ofNat i] t else m) fsm).fsm_current_state
      = fsm.fsm_current_state := by
  induction l generalizing fsm with
  | nil => rfl
  | cons i l ih =>
    rw [List.foldl_cons, ih]
    split
    · exact FiniteStateMachine.add_chars_current_state fsm s t _
    · rfl

theorem next_foldl_add (s t q : Int) (b : Byte) (keep : Nat → Bool) (l : List Nat)
    (hl : ∀ i ∈ l, i < 256) (fsm : FiniteStateMachine) :
    (l.foldl (fun m i => if keep i then m.add s [Fin.ofNat i] t else m) fsm).next q b =
      if q = s ∧ 1 ≤ q ∧ q ≤ fsm.fsm_state_count ∧ b.val ∈ l ∧ keep b.val = true then t
      else fsm.next q b := by
  induction l generalizing fsm with
  | nil => simp
  | cons i l ih =>
    have hi : i < 256 := hl i (List.mem_cons_self _ _)
    have hl2 : ∀ j ∈ l, j < 256 := fun j hj => hl j (List.mem_cons_of_mem _ hj)
    have hb : b = (Fin.ofNat i : Fin 256) ↔ b.val = i := by
      constructor
      · intro h; rw [h]; simp [Fin.ofNat, Nat.mod_eq_of_lt hi]
      · intro h; apply Fin.ext; simp [Fin.ofNat, Nat.mod_eq_of_lt hi, h]
    have hmem : b ∈ [(Fin.ofNat i : Fin 256)] ↔ b.val = i := by
      rw [List.mem_singleton]; exact hb
    have hkeep : b.val = i → (keep b.val = true ↔ keep i = true) := fun h => by rw [h]
    rw [List.foldl_cons, ih hl2]
    by_cases hk : keep i = true
    · rw [if_pos hk, FiniteStateMachine.add_chars_state_count, FiniteStateMachine.next_add_chars]
      simp only [hmem]
      simp only [List.mem_cons]
      have hK : b.val = i → keep b.val = true := fun h => (hkeep h).2 hk
      clear ih hmem hb hkeep
      split_ifs with h1 h2 h3 h4 h5 <;> first | rfl | (exfalso; tauto)
    · rw [if_neg hk]
      simp only [List.mem_cons]
      have hK : b.val = i → ¬ keep b.val = true := fun h h2 => hk ((hkeep h).1 h2)
      clear ih hmem hb hkeep
      split_ifs with h1 h2 h3 <;> first | rfl | (exfalso; tauto)

theorem next_addLoop (fsm : FiniteStateMachine) (s t q : Int) (b : Byte) (lo hi : Nat)
    (keep : Nat → Bool) (h : hi ≤ 256) :
    (addLoop fsm s lo hi keep t).next q b =
      if q = s ∧ 1 ≤ q ∧ q ≤ fsm.fsm_state_count ∧
          (lo ≤ b.val ∧ b.val < hi) ∧ keep b.val = true then t
      else fsm.next q b := by
  unfold addLoop
  rw [next_foldl_add]
  · have : b.val ∈ List.range' lo (hi - lo) ↔ (lo ≤ b.val ∧ b.val < hi) := by
      rw [List.mem_range'_1]; omega
    simp only [this]
  · intro i hi2
    rw [List.mem_range'_1] at hi2
    omega

theorem addLoop_state_count (fsm : FiniteStateMachine) (s t : Int) (lo hi : Nat)
    (keep : Nat → Bool) :
    (addLoop fsm s lo hi keep t).fsm_state_count = fsm.fsm_state_count :=
  foldl_add_state_count s t keep _ fsm

theorem addLoop_current_state (fsm : FiniteStateMachine) (s t : Int) (lo hi : Nat)
    (keep : Nat → Bool) :
    (addLoop fsm s lo hi keep t).fsm_current_state = fsm.fsm_current_state :=
  foldl_add_current_state s t keep _ fsm

namespace CIFFSM

theorem add_state_count (fsm : FiniteStateMachine) (s t : Int) (g : Transition) :
    (add fsm s g t).fsm_state_count = fsm.fsm_state_count := by
  cases g <;>
    simp [add, addDigit, addUpperChar, addBlankChar, addLoop_state_count]

theorem add_current_state (fsm : FiniteStateMachine) (s t : Int) (g : Transition) :
    (add fsm s g t).fsm_current_state = fsm.fsm_current_state := by
  cases g <;>
    simp [add, addDigit, addUpperChar, addBlankChar, addLoop_current_state]

theorem next_add (fsm : FiniteStateMachine) (s t q : Int) (g : Transition) (b : Byte) :
    (add fsm s g t).next q b =
      if q = s ∧ 1 ≤ q ∧ q ≤ fsm.fsm_state_count ∧ g.member b = true then t
      else fsm.next q b := by
  have hb : b.val < 256 := b.isLt
  have h0 : 0 ≤ b.val := Nat.zero_le _
  cases g <;>
    simp only [add, addDigit, addUpperChar, addBlankChar, next_addLoop, addLoop_state_count,
      Transition.member, le_refl, Nat.le_refl, Nat.reduceLeDiff, decide_eq_true_eq,
      Bool.or_eq_true] <;>
    split_ifs <;> first | rfl | (exfalso; tauto)

theorem call_state_count (fsm : FiniteStateMachine) (c : Call) :
    (call fsm c).fsm_state_count = fsm.fsm_state_count := by
  cases c <;> simp [call, add_state_count, FiniteStateMachine.add_chars_state_count]

theorem call_current_state (fsm : FiniteStateMachine) (c : Call) :
    (call fsm c).fsm_current_state = fsm.fsm_current_state := by
  cases c <;> simp [call, add_current_state, FiniteStateMachine.add_chars_current_state]

theorem next_call (fsm : FiniteStateMachine) (c : Call) (q : Int) (b : Byte) :
    (call fsm c).next q b =
      if q = c.input_state ∧ 1 ≤ q ∧ q ≤ fsm.fsm_state_count ∧ c.covers b = true
      then c.output_state else fsm.next q b := by
  cases c <;>
    simp [call, next_add, FiniteStateMachine.next_add_chars, Call.input_state, Call.output_state,
      Call.covers]

theorem foldl_call_state_count (l : List Call) (fsm : FiniteStateMachine) :
    (l.foldl call fsm).fsm_state_count = fsm.fsm_state_count := by
  induction l generalizing fsm with
  | nil => rfl
  | cons c l ih => rw [List.foldl_cons, ih, call_state_count]

theorem foldl_call_current_state (l : List Call) (fsm : FiniteStateMachine) :
    (l.foldl call fsm).fsm_current_state = fsm.fsm_current_state := by
  induction l generalizing fsm with
  | nil => rfl
  | cons c l ih => rw [List.foldl_cons, ih, call_current_state]

theorem next_foldl_call (l : List Call) (fsm : FiniteStateMachine) (q : Int) (b : Byte) :
    (l.foldl call fsm).next q b = entryAfter fsm.fsm_state_count q b l (fsm.next q b) := by
  induction l generalizing fsm with
  | nil => rfl
  | cons c l ih =>
    rw [List.foldl_cons, ih, call_state_count, next_call]
    rfl

/-- The engine built by the constructor looks up exactly the closed form `delta`. -/
theorem next_new (q : Int) (b : Byte) : new.next q b = delta q b := by
  unfold new delta
  rw [next_foldl_call, FiniteStateMachine.next_new_empty]
  rfl

theorem new_current_state : new.fsm_current_state = 1 := by
  unfold new
  rw [foldl_call_current_state]
  rfl

end CIFFSM

theorem entryAfter_out_of_range (n q : Int) (b : Byte) (l : List CIFFSM.Call) (e : Int)
    (h : ¬ (1 ≤ q ∧ q ≤ n)) : entryAfter n q b l e = e := by
  unfold entryAfter
  induction l generalizing e with
  | nil => rfl
  | cons c l ih =>
    rw [List.foldl_cons, ih]
    have : ¬ (q = c.input_state ∧ 1 ≤ q ∧ q ≤ n ∧ c.covers b = true) :=
      fun h2 => h ⟨h2.2.1, h2.2.2.1⟩
    rw [if_neg this]

theorem delta_error (b : Byte) : delta (-1) b = -1 :=
  entryAfter_out_of_range 89 (-1) b _ (-1) (by omega)

theorem reached_error (s : List Byte) : reached (-1) s = -1 := by
  unfold reached
  induction s with
  | nil => rfl
  | cons b s ih => rw [List.foldl_cons, delta_error, ih]

theorem reached_nil (q : Int) : reached q [] = q := rfl

theorem reached_cons (q : Int) (b : Byte) (s : List Byte) :
    reached q (b :: s) = reached (delta q b) s := rfl

theorem reached_append (q : Int) (s t : List Byte) :
    reached q (s ++ t) = reached (reached q s) t := by
  unfold reached; rw [List.foldl_append]

theorem FiniteStateMachine.feed_inState (fsm : FiniteStateMachine) (q : Int) (c : Byte) :
    (fsm.inState q).feed c = (fsm.next q c, fsm.inState (fsm.next q c)) := rfl

theorem FiniteStateMachine.eq_inState (fsm : FiniteStateMachine) :
    fsm = fsm.inState fsm.fsm_current_state := rfl

theorem validateLoop_inState (fsm : FiniteStateMachine) (d : Int → Byte → Int)
    (hd : ∀ q b, fsm.next q b = d q b) (s : List Byte) (j : Int) (p : Option Int)
    (c : Option Byte) (n : Nat) :
    validateLoop s
        { fsm := fsm.inState j, jump_state := j, previous_state := p, input_char := c,
          lookups := n } =
      { fsm := fsm.inState (scan d s j p c n).1, jump_state := (scan d s j p c n).1,
        previous_state := (scan d s j p c n).2.1, input_char := (scan d s j p c n).2.2.1,
        lookups := (scan d s j p c n).2.2.2 } := by
  induction s generalizing j p c n with
  | nil =>
    unfold validateLoop scan
    by_cases h : j = -1 <;> simp [h]
  | cons b s ih =>
    unfold validateLoop scan
    by_cases h : j = -1
    · simp [h]
    · simp only [h, if_false, FiniteStateMachine.feed_inState, hd]
      exact ih _ _ _ _

theorem validateSintax_eq_closed (s : List Byte) : validateSintax s = validateClosed s := by
  have h := validateLoop_inState CIFFSM.new delta CIFFSM.next_new s 1 none none 0
  have h1 : CIFFSM.new.inState 1 = CIFFSM.new := by
    have h2 := CIFFSM.new.eq_inState
    rw [CIFFSM.new_current_state] at h2
    exact h2.symm
  rw [h1] at h
  unfold validateSintax validateClosed
  rw [h]

theorem scan_fst (s : List Byte) (j : Int) (p : Option Int) (c : Option Byte) (n : Nat) :
    (scan delta s j p c n).1 = reached j s := by
  induction s generalizing j p c n with
  | nil => unfold scan; by_cases h : j = -1 <;> simp [h, reached_nil]
  | cons b s ih =>
    unfold scan
    by_cases h : j = -1
    · rw [if_pos h, h, reached_error]
    · rw [if_neg h, ih, reached_cons]

theorem scan_lookups_le (s : List Byte) (j : Int) (p : Option Int) (c : Option Byte)
    (n : Nat) : (scan delta s j p c n).2.2.2 ≤ n + s.length := by
  induction s generalizing j p c n with
  | nil => unfold scan; by_cases h : j = -1 <;> simp [h]
  | cons b s ih =>
    unfold scan
    by_cases h : j = -1
    · rw [if_pos h]; simp
    · rw [if_neg h]
      have := ih (delta j b) (some j) (some b) (n + 1)
      simp only [List.length_cons]
      omega

/-- The first byte from which the lookups fail: if the state reached is the error marker
although the start is not, some byte has no transition from the error-free
state reached before it. -/
theorem exists_first_error (s : List Byte) (q : Int) (hq : q ≠ -1)
    (h : reached q s = -1) :
    ∃ i, ∃ hi : i < s.length, reached q (s.take i) ≠ -1 ∧
      delta (reached q (s.take i)) (s.get ⟨i, hi⟩) = -1 := by
  induction s generalizing q with
  | nil => exact absurd h hq
  | cons b s ih =>
    by_cases hb : delta q b = -1
    · exact ⟨0, by simp, by simpa [reached_nil] using hq, by simpa [reached_nil] using hb⟩
    · rw [reached_cons] at h
      obtain ⟨i, hi, h1, h2⟩ := ih (delta q b) hb h
      refine ⟨i + 1, by simpa using hi, ?_, ?_⟩
      · simpa [reached_cons] using h1
      · simpa [reached_cons] using h2

theorem reached_take_succ (s : List Byte) (q : Int) (i : Nat) (hi : i < s.length) :
    reached q (s.take (i + 1)) = delta (reached q (s.take i)) (s.get ⟨i, hi⟩) := by
  induction s generalizing q i with
  | nil => simp at hi
  | cons b s ih =>
    cases i with
    | zero => simp [reached_cons, reached_nil]
    | succ i =>
      simp only [List.take_succ_cons, reached_cons]
      rw [ih (delta q b) i (by simpa using hi)]
      simp

theorem reached_of_take_error (s : List Byte) (q : Int) (i : Nat)
    (h : reached q (s.take i) = -1) : reached q s = -1 := by
  rw [← List.take_append_drop i s, reached_append, h, reached_error]

theorem reached_take_of_le (s : List Byte) (q : Int) (i k : Nat) (hk : k ≤ i)
    (h : reached q (s.take i) ≠ -1) : reached q (s.take k) ≠ -1 := by
  intro h2
  apply h
  have : (s.take i).take k = s.take k := by
    rw [List.take_take, Nat.min_eq_left hk]
  rw [← this] at h2
  exact reached_of_take_error _ q k h2

theorem scan_first_error (s : List Byte) (j : Int) (p : Option Int) (c : Option Byte)
    (n i : Nat) (hi : i < s.length) (h1 : reached j (s.take i) ≠ -1)
    (h2 : delta (reached j (s.take i)) (s.get ⟨i, hi⟩) = -1) :
    scan delta s j p c n =
      (-1, some (reached j (s.take i)), some (s.get ⟨i, hi⟩), n + i + 1) := by
  induction s generalizing j p c n i with
  | nil => simp at hi
  | cons b s ih =>
    have hj : j ≠ -1 := by
      have := reached_take_of_le (b :: s) j i 0 (Nat.zero_le _) h1
      simpa [reached_nil] using this
    unfold scan
    rw [if_neg hj]
    cases i with
    | zero =>
      have h3 : delta j b = -1 := by simpa [reached_nil] using h2
      rw [h3]
      cases s with
      | nil => simp [scan, reached_nil]
      | cons b2 s2 => simp [scan, reached_nil]
    | succ i =>
      have hi2 : i < s.length := by simpa using hi
      have := ih (delta j b) (some j) (some b) (n + 1) i hi2
        (by simpa [reached_cons] using h1) (by simpa [reached_cons] using h2)
      rw [this]
      simp [reached_cons]
      omega

theorem run_eq_reached (q : Int) (s : List Byte) : run q s = reached q s := by
  have h : CIFFSM.new.next = delta := funext fun q => funext fun b => CIFFSM.next_new q b
  unfold run reached
  rw [h]

theorem noTransition_iff (s : List Byte) (i : Nat) :
    noTransition s i ↔ ∃ h : i < s.length, delta (reached 1 (s.take i)) (s.get ⟨i, h⟩) = -1 := by
  unfold noTransition
  simp only [CIFFSM.next_new, run_eq_reached]

theorem reached_error_of_noTransition (s : List Byte) (i : Nat) (h : noTransition s i) :
    reached 1 (s.take (i + 1)) = -1 := by
  obtain ⟨hi, h2⟩ := (noTransition_iff s i).1 h
  rw [reached_take_succ s 1 i hi, h2]

theorem exists_noTransition_iff (s : List Byte) :
    (∃ i, noTransition s i) ↔ reached 1 s = -1 := by
  constructor
  · rintro ⟨i, h⟩
    exact reached_of_take_error s 1 (i + 1) (reached_error_of_noTransition s i h)
  · intro h
    obtain ⟨i, hi, _, h2⟩ := exists_first_error s 1 (by decide) h
    exact ⟨i, (noTransition_iff s i).2 ⟨hi, h2⟩⟩

theorem noTransition_take (s : List Byte) (i k : Nat) (h : noTransition (s.take i) k) :
    noTransition s k := by
  obtain ⟨hk, h2⟩ := (noTransition_iff _ _).1 h
  have hk1 : k < i := by
    have := hk; rw [List.length_take] at this; omega
  have hk2 : k < s.length := by
    have := hk; rw [List.length_take] at this; omega
  refine (noTransition_iff _ _).2 ⟨hk2, ?_⟩
  have e1 : (s.take i).take k = s.take k := by
    rw [List.take_take, Nat.min_eq_left (Nat.le_of_lt hk1)]
  have e2 : (s.take i).get ⟨k, hk⟩ = s.get ⟨k, hk2⟩ := by
    simp [List.getElem_take']
  rw [e1, e2] at h2
  exact h2

theorem firstInvalid_iff (s : List Byte) (i : Nat) :
    firstInvalid s i ↔ ∃ h : i < s.length, reached 1 (s.take i) ≠ -1 ∧
      delta (reached 1 (s.take i)) (s.get ⟨i, h⟩) = -1 := by
  constructor
  · rintro ⟨h1, h2⟩
    obtain ⟨hi, h3⟩ := (noTransition_iff s i).1 h1
    refine ⟨hi, ?_, h3⟩
    intro h4
    obtain ⟨k, hk⟩ := (exists_noTransition_iff (s.take i)).2 h4
    have hki : k < i := by
      obtain ⟨hk2, _⟩ := hk
      rw [List.length_take] at hk2; omega
    exact h2 k hki (noTransition_take s i k hk)
  · rintro ⟨hi, h1, h2⟩
    refine ⟨(noTransition_iff s i).2 ⟨hi, h2⟩, ?_⟩
    intro j hj hnt
    exact reached_take_of_le s 1 i (j + 1) hj h1 (reached_error_of_noTransition s j hnt)

theorem validateClosed_status_incorrect (s : List Byte) :
    (validateClosed s).status = .IncorrectInputFile ↔ reached 1 s = -1 := by
  unfold validateClosed
  simp only [scan_fst]
  split_ifs with h1 h2 <;> simp [h1]

theorem validateClosed_status_allOk (s : List Byte) :
    (validateClosed s).status = .AllOk ↔ reached 1 s = 91 ∨ reached 1 s = 92 := by
  unfold validateClosed
  simp only [scan_fst]
  split_ifs with h1 h2
  · simp [h1]
  · simp [h2.1, h2.2]
  · simp only [true_iff]
    by_contra h3
    exact h2 ⟨fun h => h3 (Or.inl h), fun h => h3 (Or.inr h)⟩

theorem validateClosed_status_cases (s : List Byte) :
    (validateClosed s).status = .IncorrectInputFile ∨ (validateClosed s).status = .AllOk ∨
      (validateClosed s).status = .IncompleteInputFile := by
  unfold validateClosed
  simp only []
  split_ifs <;> simp

theorem validateClosed_jump_state (s : List Byte) :
    (validateClosed s).jump_state = reached 1 s := by
  unfold validateClosed
  simp only [scan_fst]
  split_ifs <;> rfl

theorem validateClosed_of_firstInvalid (s : List Byte) (i : Nat) (h : firstInvalid s i) :
    validateClosed s =
      { status := .IncorrectInputFile, message_state := some (reached 1 (s.take i)),
        message_char := s[i]?, jump_state := -1, lookups := i + 1 } := by
  obtain ⟨hi, h1, h2⟩ := (firstInvalid_iff s i).1 h
  unfold validateClosed
  rw [scan_first_error s 1 none none 0 i hi h1 h2]
  simp [List.getElem?_eq_getElem hi]

/-! ## The validator: claims C1 to C4 -/

/-- C1: for every byte sequence `s`, `validateSintax` (engine started in state 1) returns
`IncorrectInputFile` exactly when some byte of `s` has no configured transition
from the state reached by the bytes before it; the state it reports is then the
state reached by the bytes before the first such byte, and the byte it reports is
that byte. Otherwise it returns `AllOk` exactly when the state reached after all
of `s` is 91 or 92, and `IncompleteInputFile` if not. -/
theorem validateSintax_classifies (s : List Byte) :
    ((validateSintax s).status = .IncorrectInputFile ↔ ∃ i, noTransition s i) ∧
    (∀ i, firstInvalid s i →
      (validateSintax s).message_state = some (run 1 (s.take i)) ∧
      (validateSintax s).message_char = s[i]?) ∧
    ((¬ ∃ i, noTransition s i) →
      ((validateSintax s).status = .AllOk ↔ (run 1 s = 91 ∨ run 1 s = 92)) ∧
      ((validateSintax s).status ≠ .AllOk →
        (validateSintax s).status = .IncompleteInputFile)) := by
  simp only [validateSintax_eq_closed, run_eq_reached]
  refine ⟨?_, ?_, ?_⟩
  · rw [validateClosed_status_incorrect, exists_noTransition_iff]
  · intro i hi
    rw [validateClosed_of_firstInvalid s i hi]
    exact ⟨rfl, rfl⟩
  · intro h
    refine ⟨validateClosed_status_allOk s, ?_⟩
    intro h2
    rcases validateClosed_status_cases s with h3 | h3 | h3
    · exact absurd ((exists_noTransition_iff s).2
        ((validateClosed_status_incorrect s).1 h3)) h
    · exact absurd h3 h2
    · exact h3

theorem firstInvalid_append (s t : List Byte) (i : Nat) (h : firstInvalid s i) :
    firstInvalid (s ++ t) i ∧ (s ++ t)[i]? = s[i]? ∧
      reached 1 ((s ++ t).take i) = reached 1 (s.take i) := by
  obtain ⟨hi, h1, h2⟩ := (firstInvalid_iff s i).1 h
  have hi2 : i < (s ++ t).length := by rw [List.length_append]; omega
  have e1 : (s ++ t).take i = s.take i := by
    rw [List.take_append_of_le_length (Nat.le_of_lt hi)]
  have e2 : (s ++ t).get ⟨i, hi2⟩ = s.get ⟨i, hi⟩ := by
    simp [List.getElem_append_left hi]
  refine ⟨(firstInvalid_iff _ i).2 ⟨hi2, ?_, ?_⟩, ?_, ?_⟩
  · rw [e1]; exact h1
  · rw [e1, e2]; exact h2
  · rw [List.getElem?_append_left hi]
  · rw [e1]

/-- C2: the validator halts at the first invalid byte. If validating `s` yields
`IncorrectInputFile` with reported state `q` and reported byte `b`, validating
`s` followed by any `t` yields `IncorrectInputFile` with the same `q` and `b`,
and the engine is looked up exactly once for each byte up to and including the
first invalid one (position `i`, so `i + 1` lookups, at most the input length):
no byte after it is fed. -/
theorem validateSintax_halts_at_first_invalid (s t : List Byte) (q : Int) (b : Byte)
    (h : (validateSintax s).status = .IncorrectInputFile ∧
      (validateSintax s).message_state = some q ∧ (validateSintax s).message_char = some b) :
    (validateSintax (s ++ t)).status = .IncorrectInputFile ∧
    (validateSintax (s ++ t)).message_state = some q ∧
    (validateSintax (s ++ t)).message_char = some b ∧
    ∃ i, firstInvalid (s ++ t) i ∧ (validateSintax (s ++ t)).lookups = i + 1 ∧
      (validateSintax (s ++ t)).lookups ≤ (s ++ t).length := by
  simp only [validateSintax_eq_closed] at h ⊢
  obtain ⟨h1, h2, h3⟩ := h
  have h4 := (validateClosed_status_incorrect s).1 h1
  obtain ⟨i, hi, h5, h6⟩ := exists_first_error s 1 (by decide) h4
  have hf : firstInvalid s i := (firstInvalid_iff s i).2 ⟨hi, h5, h6⟩
  rw [validateClosed_of_firstInvalid s i hf] at h2 h3
  obtain ⟨hf2, e1, e2⟩ := firstInvalid_append s t i hf
  rw [validateClosed_of_firstInvalid (s ++ t) i hf2]
  simp only at h2 h3 ⊢
  refine ⟨trivial, ?_, ?_, i, hf2, rfl, ?_⟩
  · rw [e2]; exact h2
  · rw [e1]; exact h3
  · rw [List.length_append]; omega

set_option maxRecDepth 100000 in
/-- The instance of C2 at `s = "P1;"`, followed by `t = "2 3 ;"`: validating `s` reports
state 4 and the byte ';' (59). -/
theorem validateSintax_halts_at_first_invalid_witness :
    ((validateSintax (bytes "P1;")).status = .IncorrectInputFile ∧
      (validateSintax (bytes "P1;")).message_state = some 4 ∧
      (validateSintax (bytes "P1;")).message_char = some 59) ∧
    ((validateSintax (bytes "P1;" ++ bytes "2 3 ;")).status = .IncorrectInputFile ∧
      (validateSintax (bytes "P1;" ++ bytes "2 3 ;")).message_state = some 4 ∧
      (validateSintax (bytes "P1;" ++ bytes "2 3 ;")).message_char = some 59 ∧
      ∃ i, firstInvalid (bytes "P1;" ++ bytes "2 3 ;") i ∧
        (validateSintax (bytes "P1;" ++ bytes "2 3 ;")).lookups = i + 1 ∧
        (validateSintax (bytes "P1;" ++ bytes "2 3 ;")).lookups ≤
          (bytes "P1;" ++ bytes "2 3 ;").length) :=
  have h : (validateSintax (bytes "P1;")).status = .IncorrectInputFile ∧
      (validateSintax (bytes "P1;")).message_state = some 4 ∧
      (validateSintax (bytes "P1;")).message_char = some 59 := by
    rw [validateSintax_eq_closed]; decide
  ⟨h, validateSintax_halts_at_first_invalid (bytes "P1;") (bytes "2 3 ;") 4 59 h⟩

set_option maxRecDepth 100000 in
theorem delta_one_blank :
    ∀ b : Byte, Transition.member .BlankChar b = true → delta 1 b = 1 := by
  decide

theorem reached_one_blank (s : List Byte)
    (h : ∀ b ∈ s, Transition.member .BlankChar b = true) : reached 1 s = 1 := by
  induction s with
  | nil => rfl
  | cons b s ih =>
    rw [reached_cons, delta_one_blank b (h b (List.mem_cons_self _ _))]
    exact ih fun c hc => h c (List.mem_cons_of_mem _ hc)

/-- C3: for every input made only of bytes of the group `BlankChar` (the empty input
among them), `validateSintax` returns `IncompleteInputFile` and the state at the
end is 1. -/
theorem validateSintax_blank (s : List Byte)
    (h : ∀ b ∈ s, Transition.member .BlankChar b = true) :
    (validateSintax s).status = .IncompleteInputFile ∧ (validateSintax s).jump_state = 1 := by
  have h1 := reached_one_blank s h
  rw [validateSintax_eq_closed]
  refine ⟨?_, by rw [validateClosed_jump_state, h1]⟩
  rcases validateClosed_status_cases s with h3 | h3 | h3
  · rw [validateClosed_status_incorrect, h1] at h3
    exact absurd h3 (by decide)
  · rw [validateClosed_status_allOk, h1] at h3
    exact absurd h3 (by decide)
  · exact h3

set_option maxRecDepth 100000 in
/-- The instances of C3 at the empty input and at the single byte 0x01. -/
theorem validateSintax_blank_witness :
    ((validateSintax []).status = .IncompleteInputFile ∧ (validateSintax []).jump_state = 1) ∧
    ((∀ b ∈ [(1 : Byte)], Transition.member .BlankChar b = true) ∧
      (validateSintax [1]).status = .IncompleteInputFile ∧
      (validateSintax [1]).jump_state = 1) :=
  ⟨validateSintax_blank [] (by simp),
    by decide, validateSintax_blank [1] (by decide)⟩

set_option maxRecDepth 100000 in
/-- C4 (evaluation of the code): on the bytes "B 4 2 1 1 ;" followed by "E",
`validateSintax` returns `IncorrectInputFile`: the twelve bytes are looked up, the
box is consumed back to state 1, and the byte 'E' (69) has no transition from
state 1. -/
theorem validateSintax_box_end :
    validateSintax (bytes "B 4 2 1 1 ;" ++ bytes "E") =
      { status := .IncorrectInputFile, message_state := some 1, message_char := some 69,
        jump_state := -1, lookups := 12 } := by
  rw [validateSintax_eq_closed]; decide

/-! ## Printing and extracting integers -/

theorem takeWhile_append_stop {α : Type} (p : α → Bool) (l r : List α)
    (hl : ∀ x ∈ l, p x = true) (hr : ∀ x ∈ r.head?, p x = false) :
    (l ++ r).takeWhile p = l := by
  induction l with
  | nil =>
    cases r with
    | nil => rfl
    | cons y r => simp [List.takeWhile, hr y (by simp)]
  | cons x l ih =>
    have hx := hl x (List.mem_cons_self _ _)
    simp only [List.cons_append, List.takeWhile_cons, hx, if_true]
    rw [ih fun z hz => hl z (List.mem_cons_of_mem _ hz)]

theorem dropWhile_append_stop {α : Type} (p : α → Bool) (l r : List α)
    (hl : ∀ x ∈ l, p x = true) (hr : ∀ x ∈ r.head?, p x = false) :
    (l ++ r).dropWhile p = r := by
  induction l with
  | nil =>
    cases r with
    | nil => rfl
    | cons y r => simp [List.dropWhile, hr y (by simp)]
  | cons x l ih =>
    have hx := hl x (List.mem_cons_self _ _)
    simp only [List.cons_append, List.dropWhile_cons, hx, if_true]
    rw [ih fun z hz => hl z (List.mem_cons_of_mem _ hz)]

theorem digitByte_val (n : Nat) : ((Fin.ofNat (48 + n % 10) : Byte)).val = 48 + n % 10 := by
  have : n % 10 < 10 := Nat.mod_lt _ (by decide)
  simp only [Fin.ofNat]
  exact Nat.mod_eq_of_lt (by omega)

theorem isDigitByte_digitByte (n : Nat) : isDigitByte (Fin.ofNat (48 + n % 10)) = true := by
  have : n % 10 < 10 := Nat.mod_lt _ (by decide)
  simp only [isDigitByte, isdigit, digitByte_val, decide_eq_true_eq]
  omega

theorem digitsValue_append_singleton (ds : List Byte) (d : Byte) :
    digitsValue (ds ++ [d]) = 10 * digitsValue ds + (d.val - 48) := by
  simp [digitsValue, List.foldl_append]

/-- What `printDigits` puts before the accumulator: a non-empty run of digits that denotes
`n`. -/
theorem printDigits_spec (fuel n : Nat) (acc : List Byte) (h : n < fuel) :
    ∃ ds, printDigits fuel n acc = ds ++ acc ∧ ds ≠ [] ∧
      (∀ d ∈ ds, isDigitByte d = true) ∧ digitsValue ds = n := by
  induction fuel generalizing n acc with
  | zero => omega
  | succ fuel ih =>
    unfold printDigits
    by_cases h0 : n / 10 = 0
    · rw [if_pos h0]
      refine ⟨[Fin.ofNat (48 + n % 10)], rfl, by simp, ?_, ?_⟩
      · intro d hd
        rw [List.mem_singleton] at hd
        rw [hd]; exact isDigitByte_digitByte n
      · simp only [digitsValue, List.foldl_cons, List.foldl_nil, digitByte_val]
        omega
    · rw [if_neg h0]
      have hlt : n / 10 < fuel := by omega
      obtain ⟨ds, h1, h2, h3, h4⟩ := ih (n / 10) (Fin.ofNat (48 + n % 10) :: acc) hlt
      refine ⟨ds ++ [Fin.ofNat (48 + n % 10)], ?_, by simp, ?_, ?_⟩
      · rw [h1]; simp
      · intro d hd
        rw [List.mem_append, List.mem_singleton] at hd
        rcases hd with hd | hd
        · exact h3 d hd
        · rw [hd]; exact isDigitByte_digitByte n
      · rw [digitsValue_append_singleton, h4, digitByte_val]
        omega

theorem printULong_ne_nil (n : Nat) : printULong n ≠ [] := by
  obtain ⟨ds, h1, h2, _, _⟩ := printDigits_spec (n + 1) n [] (Nat.lt_succ_self n)
  unfold printULong
  rw [h1, List.append_nil]; exact h2

theorem printULong_digits (n : Nat) : ∀ d ∈ printULong n, isDigitByte d = true := by
  obtain ⟨ds, h1, _, h3, _⟩ := printDigits_spec (n + 1) n [] (Nat.lt_succ_self n)
  unfold printULong
  rw [h1, List.append_nil]; exact h3

theorem digitsValue_printULong (n : Nat) : digitsValue (printULong n) = n := by
  obtain ⟨ds, h1, _, _, h4⟩ := printDigits_spec (n + 1) n [] (Nat.lt_succ_self n)
  unfold printULong
  rw [h1, List.append_nil]; exact h4

theorem isspace_of_isDigitByte (b : Byte) (h : isDigitByte b = true) : isspace b = false := by
  simp only [isDigitByte, isdigit, decide_eq_true_eq] at h
  simp only [isspace, decide_eq_false_iff_not]
  omega

theorem takeSign_of_isDigitByte (c : Byte) (r : List Byte) (h : isDigitByte c = true) :
    takeSign (c :: r) = (false, c :: r) := by
  simp only [isDigitByte, isdigit, decide_eq_true_eq] at h
  have h1 : ¬ c.val = 45 := by omega
  have h2 : ¬ c.val = 43 := by omega
  simp [takeSign, h1, h2]

theorem head?_append_of_ne_nil (l r : List Byte) (h : l ≠ []) :
    (l ++ r).head? = l.head? := by
  cases l with
  | nil => exact absurd rfl h
  | cons x l => rfl

theorem readULong_of_dropWhile (buf : List Byte) (x : Nat) (c : Byte) (r : List Byte)
    (h : buf.dropWhile isspace = c :: r) :
    IStream.readULong { buf := buf, fail := false } x =
      if (takeSign (c :: r)).2.takeWhile isDigitByte = [] then
        ({ buf := (takeSign (c :: r)).2.dropWhile isDigitByte, fail := true }, 0)
      else if digitsValue ((takeSign (c :: r)).2.takeWhile isDigitByte) > ULONG_MAX then
        ({ buf := (takeSign (c :: r)).2.dropWhile isDigitByte, fail := true }, ULONG_MAX)
      else
        ({ buf := (takeSign (c :: r)).2.dropWhile isDigitByte, fail := false },
          if (takeSign (c :: r)).1 then
            (ULONG_MAX + 1 - digitsValue ((takeSign (c :: r)).2.takeWhile isDigitByte)) %
              (ULONG_MAX + 1)
          else digitsValue ((takeSign (c :: r)).2.takeWhile isDigitByte)) := by
  simp only [IStream.readULong, h, Bool.false_eq_true, if_false]

theorem readLong_of_dropWhile (buf : List Byte) (x : Int) (c : Byte) (r : List Byte)
    (h : buf.dropWhile isspace = c :: r) :
    IStream.readLong { buf := buf, fail := false } x =
      if (takeSign (c :: r)).2.takeWhile isDigitByte = [] then
        ({ buf := (takeSign (c :: r)).2.dropWhile isDigitByte, fail := true }, 0)
      else if (if (takeSign (c :: r)).1 then
            -(digitsValue ((takeSign (c :: r)).2.takeWhile isDigitByte) : Int)
          else (digitsValue ((takeSign (c :: r)).2.takeWhile isDigitByte) : Int)) > LONG_MAX then
        ({ buf := (takeSign (c :: r)).2.dropWhile isDigitByte, fail := true }, LONG_MAX)
      else if (if (takeSign (c :: r)).1 then
            -(digitsValue ((takeSign (c :: r)).2.takeWhile isDigitByte) : Int)
          else (digitsValue ((takeSign (c :: r)).2.takeWhile isDigitByte) : Int)) < LONG_MIN then
        ({ buf := (takeSign (c :: r)).2.dropWhile isDigitByte, fail := true }, LONG_MIN)
      else
        ({ buf := (takeSign (c :: r)).2.dropWhile isDigitByte, fail := false },
          if (takeSign (c :: r)).1 then
            -(digitsValue ((takeSign (c :: r)).2.takeWhile isDigitByte) : Int)
          else (digitsValue ((takeSign (c :: r)).2.takeWhile isDigitByte) : Int)) := by
  simp only [IStream.readLong, h, Bool.false_eq_true, if_false]

/-- Extracting an `unsigned long int` from white space, the decimal digits of a value in
range, and a rest that does not go on with a digit, yields the value (the stream
does not fail) and leaves the rest. -/
theorem readULong_printULong (ws rest : List Byte) (n x : Nat)
    (hws : ∀ b ∈ ws, isspace b = true) (hrest : ∀ c ∈ rest.head?, isDigitByte c = false)
    (hn : n ≤ ULONG_MAX) :
    IStream.readULong { buf := ws ++ (printULong n ++ rest), fail := false } x =
      ({ buf := rest, fail := false }, n) := by
  obtain ⟨d, ds, hd⟩ := List.exists_cons_of_ne_nil (printULong_ne_nil n)
  have hdig := printULong_digits n
  have hd0 : isDigitByte d = true := hdig d (by rw [hd]; exact List.mem_cons_self _ _)
  have h1 : (ws ++ (printULong n ++ rest)).dropWhile isspace = d :: (ds ++ rest) := by
    rw [dropWhile_append_stop isspace ws _ hws, hd]
    · rfl
    · intro c hc
      rw [hd] at hc
      simp only [List.cons_append, List.head?_cons, Option.mem_def, Option.some.injEq] at hc
      rw [← hc]; exact isspace_of_isDigitByte d hd0
  rw [readULong_of_dropWhile _ x d (ds ++ rest) h1, takeSign_of_isDigitByte d _ hd0]
  have e : d :: (ds ++ rest) = printULong n ++ rest := by rw [hd]; rfl
  simp only [e, takeWhile_append_stop isDigitByte _ rest hdig hrest,
    dropWhile_append_stop isDigitByte _ rest hdig hrest, digitsValue_printULong]
  rw [if_neg (printULong_ne_nil n), if_neg (by omega)]
  simp

theorem printLong_ne_nil (x : Int) : printLong x ≠ [] := by
  unfold printLong
  split
  · simp
  · exact printULong_ne_nil _

theorem printLong_not_space (x : Int) : ∀ b ∈ printLong x, isspace b = false := by
  intro b hb
  unfold printLong at hb
  split at hb
  · rw [List.mem_cons] at hb
    rcases hb with hb | hb
    · rw [hb]; decide
    · exact isspace_of_isDigitByte b (printULong_digits _ b hb)
  · exact isspace_of_isDigitByte b (printULong_digits _ b hb)

/-- Extracting a `long int` from white space, the decimal form of a value in range, and a
rest that does not go on with a digit, yields the value (the stream does not
fail) and leaves the rest. -/
theorem readLong_printLong (ws rest : List Byte) (v x : Int)
    (hws : ∀ b ∈ ws, isspace b = true) (hrest : ∀ c ∈ rest.head?, isDigitByte c = false)
    (hv : LONG_MIN ≤ v ∧ v ≤ LONG_MAX) :
    IStream.readLong { buf := ws ++ (printLong v ++ rest), fail := false } x =
      ({ buf := rest, fail := false }, v) := by
  have hdig := printULong_digits v.natAbs
  have hne := printULong_ne_nil v.natAbs
  have hfirst : ∀ c ∈ (printLong v ++ rest).head?, isspace c = false := by
    intro c hc
    rw [head?_append_of_ne_nil _ _ (printLong_ne_nil v)] at hc
    exact printLong_not_space v c (List.mem_of_mem_head? hc)
  by_cases hneg : v < 0
  · have h1 : (ws ++ (printLong v ++ rest)).dropWhile isspace =
        (45 : Byte) :: (printULong v.natAbs ++ rest) := by
      rw [dropWhile_append_stop isspace ws _ hws hfirst]
      simp [printLong, hneg]
    rw [readLong_of_dropWhile _ x _ _ h1]
    have hs : takeSign ((45 : Byte) :: (printULong v.natAbs ++ rest)) =
        (true, printULong v.natAbs ++ rest) := rfl
    simp only [hs, takeWhile_append_stop isDigitByte _ rest hdig hrest,
      dropWhile_append_stop isDigitByte _ rest hdig hrest, digitsValue_printULong, if_true]
    have e : -(v.natAbs : Int) = v := by omega
    rw [if_neg hne, e, if_neg (by unfold LONG_MAX at *; omega),
      if_neg (by unfold LONG_MIN at *; omega)]
  · obtain ⟨d, ds, hd⟩ := List.exists_cons_of_ne_nil hne
    have hd0 : isDigitByte d = true := hdig d (by rw [hd]; exact List.mem_cons_self _ _)
    have h1 : (ws ++ (printLong v ++ rest)).dropWhile isspace = d :: (ds ++ rest) := by
      rw [dropWhile_append_stop isspace ws _ hws hfirst]
      simp [printLong, hneg, hd]
    rw [readLong_of_dropWhile _ x _ _ h1, takeSign_of_isDigitByte d _ hd0]
    have e2 : d :: (ds ++ rest) = printULong v.natAbs ++ rest := by rw [hd]; rfl
    simp only [e2, takeWhile_append_stop isDigitByte _ rest hdig hrest,
      dropWhile_append_stop isDigitByte _ rest hdig hrest, digitsValue_printULong,
      Bool.false_eq_true, if_false]
    have e : (v.natAbs : Int) = v := by omega
    rw [if_neg hne, e, if_neg (by unfold LONG_MAX at *; omega),
      if_neg (by unfold LONG_MIN at *; omega)]

/-! ## Extraction from the canonical texts -/

theorem bytes_B : bytes "B " = [66, 32] := by decide

theorem bytes_space : bytes " " = [32] := by decide

theorem bytes_end : bytes " ;" = [32, 59] := by decide

theorem bytes_semicolon : bytes ";" = [59] := by decide

theorem bytes_DD : bytes "D D " = [68, 32, 68, 32] := by decide

theorem bytes_P : bytes "P" = [80] := by decide

theorem readWord_word (ws w rest word : List Byte) (hws : ∀ b ∈ ws, isspace b = true)
    (hne : w ≠ []) (hw : ∀ b ∈ w, isspace b = false)
    (hrest : ∀ c ∈ rest.head?, isspace c = true) :
    IStream.readWord { buf := ws ++ (w ++ rest), fail := false } word =
      ({ buf := rest, fail := false }, w) := by
  obtain ⟨c, w2, hc⟩ := List.exists_cons_of_ne_nil hne
  have h1 : (ws ++ (w ++ rest)).dropWhile isspace = c :: (w2 ++ rest) := by
    rw [dropWhile_append_stop isspace ws _ hws, hc]
    · rfl
    · intro d hd
      rw [head?_append_of_ne_nil _ _ hne] at hd
      exact hw d (List.mem_of_mem_head? hd)
  have hw2 : ∀ b ∈ w, (fun b => !isspace b) b = true := by
    intro b hb; simp [hw b hb]
  have hr2 : ∀ d ∈ rest.head?, (fun b => !isspace b) d = false := by
    intro d hd; simp [hrest d hd]
  have e : c :: (w2 ++ rest) = w ++ rest := by rw [hc]; rfl
  simp only [IStream.readWord, h1, Bool.false_eq_true, if_false]
  rw [e, takeWhile_append_stop _ w rest hw2 hr2, dropWhile_append_stop _ w rest hw2 hr2]

theorem space_ws : ∀ b ∈ [(32 : Byte)], isspace b = true := by
  intro b hb
  rw [List.mem_singleton] at hb
  rw [hb]; rfl

theorem head_space_not_digit (rest : List Byte) :
    ∀ c ∈ ((32 : Byte) :: rest).head?, isDigitByte c = false := by
  intro c hc
  simp only [List.head?_cons, Option.mem_def, Option.some.injEq] at hc
  rw [← hc]; rfl

theorem head_space (rest : List Byte) :
    ∀ c ∈ ((32 : Byte) :: rest).head?, isspace c = true := by
  intro c hc
  simp only [List.head?_cons, Option.mem_def, Option.some.injEq] at hc
  rw [← hc]; rfl

theorem readULong_sp (n x : Nat) (rest : List Byte) (hn : n ≤ ULONG_MAX) :
    IStream.readULong { buf := 32 :: (printULong n ++ 32 :: rest), fail := false } x =
      ({ buf := 32 :: rest, fail := false }, n) :=
  readULong_printULong [32] (32 :: rest) n x space_ws (head_space_not_digit rest) hn

theorem readLong_sp (v x : Int) (rest : List Byte) (hv : LONG_MIN ≤ v ∧ v ≤ LONG_MAX) :
    IStream.readLong { buf := 32 :: (printLong v ++ 32 :: rest), fail := false } x =
      ({ buf := 32 :: rest, fail := false }, v) :=
  readLong_printLong [32] (32 :: rest) v x space_ws (head_space_not_digit rest) hv

theorem readLong_word (v x : Int) (hv : LONG_MIN ≤ v ∧ v ≤ LONG_MAX) :
    IStream.readLong (IStream.ofString (printLong v)) x = ({ buf := [], fail := false }, v) := by
  have := readLong_printLong [] [] v x (by simp) (by simp) hv
  simpa [IStream.ofString] using this

theorem readWord_sp_long (v : Int) (rest word : List Byte) :
    IStream.readWord { buf := 32 :: (printLong v ++ 32 :: rest), fail := false } word =
      ({ buf := 32 :: rest, fail := false }, printLong v) :=
  readWord_word [32] (printLong v) (32 :: rest) word space_ws (printLong_ne_nil v)
    (printLong_not_space v) (head_space rest)

theorem readWord_letter_sp (c : Byte) (rest word : List Byte) (hc : isspace c = false) :
    IStream.readWord { buf := c :: 32 :: rest, fail := false } word =
      ({ buf := 32 :: rest, fail := false }, [c]) :=
  readWord_word [] [c] (32 :: rest) word (by simp) (by simp) (by simpa using hc)
    (head_space rest)

theorem readWord_end (word : List Byte) :
    IStream.readWord { buf := [32, 59], fail := false } word =
      ({ buf := [], fail := false }, [59]) := by
  rfl

theorem printLong_ne_semicolon (v : Int) : printLong v ≠ [59] := by
  intro h
  unfold printLong at h
  split at h
  · have := congrArg List.head? h
    simp at this
  · have h2 := printULong_digits v.natAbs 59 (by rw [h]; simp)
    exact absurd h2 (by decide)

theorem boxText_eq (w h : Nat) (x y : Int) :
    boxText w h x y =
      66 :: 32 :: (printULong w ++ 32 :: (printULong h ++ 32 :: (printLong x ++
        32 :: (printLong y ++ [32, 59])))) := by
  simp [boxText, bytes_B, bytes_space, bytes_end]

theorem boxRotationText_eq (w h : Nat) (x y rx ry : Int) :
    boxRotationText w h x y rx ry =
      66 :: 32 :: (printULong w ++ 32 :: (printULong h ++ 32 :: (printLong x ++
        32 :: (printLong y ++ 32 :: (printLong rx ++ 32 :: (printLong ry ++ [32, 59])))))) := by
  simp [boxRotationText, bytes_B, bytes_space, bytes_end]

theorem BoxCommand.print_eq_text (c : BoxCommand) :
    c.print = boxRotationText c.box_size.width c.box_size.height c.command_position.x
      c.command_position.y c.box_rotation.x c.box_rotation.y := by
  simp [BoxCommand.print, boxRotationText, Size.print, Point.print]

theorem BoxCommand.read_boxText (command : BoxCommand) (locals : BoxLocals) (w h : Nat)
    (x y : Int) (hw : w ≤ ULONG_MAX) (hh : h ≤ ULONG_MAX)
    (hx : LONG_MIN ≤ x ∧ x ≤ LONG_MAX) (hy : LONG_MIN ≤ y ∧ y ≤ LONG_MAX) :
    (command.read (IStream.ofString (boxText w h x y)) locals).1 =
      { command_type := command.command_type, command_position := { x := x, y := y },
        box_size := { width := w, height := h }, box_rotation := { x := 1, y := 0 } } := by
  simp only [BoxCommand.read, IStream.ofString, boxText_eq, Size.read, Point.read,
    readWord_letter_sp 66 _ _ (by decide), readULong_sp _ _ _ hw, readULong_sp _ _ _ hh,
    readLong_sp _ _ _ hx, readLong_sp _ _ _ hy, readWord_end, bytes_semicolon]
  simp

theorem BoxCommand.read_boxRotationText (command : BoxCommand) (locals : BoxLocals)
    (w h : Nat) (x y rx ry : Int) (hw : w ≤ ULONG_MAX) (hh : h ≤ ULONG_MAX)
    (hx : LONG_MIN ≤ x ∧ x ≤ LONG_MAX) (hy : LONG_MIN ≤ y ∧ y ≤ LONG_MAX)
    (hrx : LONG_MIN ≤ rx ∧ rx ≤ LONG_MAX) (hry : LONG_MIN ≤ ry ∧ ry ≤ LONG_MAX) :
    (command.read (IStream.ofString (boxRotationText w h x y rx ry)) locals).1 =
      { command_type := command.command_type, command_position := { x := x, y := y },
        box_size := { width := w, height := h }, box_rotation := { x := rx, y := ry } } := by
  simp only [BoxCommand.read, IStream.ofString, boxRotationText_eq, Size.read, Point.read,
    readWord_letter_sp 66 _ _ (by decide), readULong_sp _ _ _ hw, readULong_sp _ _ _ hh,
    readLong_sp _ _ _ hx, readLong_sp _ _ _ hy, readWord_sp_long, bytes_semicolon]
  rw [if_pos (printLong_ne_semicolon rx)]
  have e1 := readLong_word rx locals.x hrx
  simp only [IStream.ofString] at e1
  have e2 : IStream.readLong { buf := 32 :: (printLong ry ++ [32, 59]), fail := false }
      locals.y = ({ buf := [32, 59], fail := false }, ry) :=
    readLong_printLong [32] [32, 59] ry locals.y space_ws (head_space_not_digit [59]) hry
  simp only [e1, e2]

theorem definitionDeleteText_eq (n : Nat) :
    definitionDeleteText n = 68 :: 32 :: 68 :: 32 :: (printULong n ++ [32, 59]) := by
  simp [definitionDeleteText, bytes_DD, bytes_end]

theorem DefinitionDeleteCommand.print_eq_definitionDeleteText (c : DefinitionDeleteCommand) :
    c.print = definitionDeleteText c.command_id := rfl

theorem DefinitionDeleteCommand.read_definitionDeleteText (command : DefinitionDeleteCommand)
    (n id : Nat) (hn : n ≤ ULONG_MAX) :
    (command.read (IStream.ofString (definitionDeleteText n)) id).1 =
      { command_type := command.command_type, command_id := n } := by
  have e1 : ∀ (rest word : List Byte),
      IStream.readWord { buf := 32 :: 68 :: 32 :: rest, fail := false } word =
        ({ buf := 32 :: rest, fail := false }, [68]) := fun rest word =>
    readWord_word [32] [68] (32 :: rest) word space_ws (by simp)
      (by intro b hb; rw [List.mem_singleton] at hb; rw [hb]; rfl) (head_space rest)
  have e2 : IStream.readULong { buf := 32 :: (printULong n ++ [32, 59]), fail := false } id =
      ({ buf := [32, 59], fail := false }, n) :=
    readULong_printULong [32] [32, 59] n id space_ws (head_space_not_digit [59]) hn
  simp only [DefinitionDeleteCommand.read, IStream.ofString, definitionDeleteText_eq,
    readWord_letter_sp 68 _ _ (by decide), e1, e2]

/-! ## The commands: claims C5 to C8 -/

/-- C5: round trip for Box. For every `BoxCommand` `c` (its size two `unsigned long int`,
its position and its rotation two `long int` each), reading the text that
`print` emits for `c` into a `BoxCommand` yields the size, the position and the
rotation of `c`. -/
theorem BoxCommand.read_print_round_trip (c command : BoxCommand) (locals : BoxLocals)
    (hsize : c.box_size.width ≤ ULONG_MAX ∧ c.box_size.height ≤ ULONG_MAX)
    (hposition : (LONG_MIN ≤ c.command_position.x ∧ c.command_position.x ≤ LONG_MAX) ∧
      (LONG_MIN ≤ c.command_position.y ∧ c.command_position.y ≤ LONG_MAX))
    (hrotation : (LONG_MIN ≤ c.box_rotation.x ∧ c.box_rotation.x ≤ LONG_MAX) ∧
      (LONG_MIN ≤ c.box_rotation.y ∧ c.box_rotation.y ≤ LONG_MAX)) :
    (command.read (IStream.ofString c.print) locals).1.box_size = c.box_size ∧
    (command.read (IStream.ofString c.print) locals).1.command_position =
      c.command_position ∧
    (command.read (IStream.ofString c.print) locals).1.box_rotation = c.box_rotation := by
  rw [BoxCommand.print_eq_text, BoxCommand.read_boxRotationText command locals _ _ _ _ _ _
    hsize.1 hsize.2 hposition.1 hposition.2 hrotation.1 hrotation.2]
  exact ⟨rfl, rfl, rfl⟩

/-- The instance of C5 at the box of size (4, 2), position (-3, 7) and rotation (0, -1),
printed as "B 4 2 -3 7 0 -1 ;". -/
theorem BoxCommand.read_print_round_trip_witness :
    (BoxCommand.mk .Box ⟨-3, 7⟩ ⟨4, 2⟩ ⟨0, -1⟩).print = bytes "B 4 2 -3 7 0 -1 ;" ∧
    ((BoxCommand.mk .Box ⟨0, 0⟩ ⟨0, 0⟩ ⟨1, 0⟩).read
        (IStream.ofString (BoxCommand.mk .Box ⟨-3, 7⟩ ⟨4, 2⟩ ⟨0, -1⟩).print)
        ⟨⟨0, 0⟩, ⟨0, 0⟩, 0, 0⟩).1.box_size = ⟨4, 2⟩ ∧
    ((BoxCommand.mk .Box ⟨0, 0⟩ ⟨0, 0⟩ ⟨1, 0⟩).read
        (IStream.ofString (BoxCommand.mk .Box ⟨-3, 7⟩ ⟨4, 2⟩ ⟨0, -1⟩).print)
        ⟨⟨0, 0⟩, ⟨0, 0⟩, 0, 0⟩).1.command_position = ⟨-3, 7⟩ ∧
    ((BoxCommand.mk .Box ⟨0, 0⟩ ⟨0, 0⟩ ⟨1, 0⟩).read
        (IStream.ofString (BoxCommand.mk .Box ⟨-3, 7⟩ ⟨4, 2⟩ ⟨0, -1⟩).print)
        ⟨⟨0, 0⟩, ⟨0, 0⟩, 0, 0⟩).1.box_rotation = ⟨0, -1⟩ :=
  ⟨by decide,
    BoxCommand.read_print_round_trip ⟨.Box, ⟨-3, 7⟩, ⟨4, 2⟩, ⟨0, -1⟩⟩
      ⟨.Box, ⟨0, 0⟩, ⟨0, 0⟩, ⟨1, 0⟩⟩ ⟨⟨0, 0⟩, ⟨0, 0⟩, 0, 0⟩
      (by decide) (by decide) (by decide)⟩

/-- C6, as stated, fails: in the text "B 18446744073709551616 2 1 1 ;" the width is 2^64,
which no `unsigned long int` holds; the extraction fails and the command read
does not have the size (2^64, 2), the position (1, 1) and the rotation (1, 0). -/
theorem BoxCommand.read_boxText_out_of_range :
    ¬ (((BoxCommand.mk .Box ⟨0, 0⟩ ⟨0, 0⟩ ⟨1, 0⟩).read
          (IStream.ofString (boxText 18446744073709551616 2 1 1))
          ⟨⟨0, 0⟩, ⟨0, 0⟩, 0, 0⟩).1.box_size = ⟨18446744073709551616, 2⟩ ∧
      ((BoxCommand.mk .Box ⟨0, 0⟩ ⟨0, 0⟩ ⟨1, 0⟩).read
          (IStream.ofString (boxText 18446744073709551616 2 1 1))
          ⟨⟨0, 0⟩, ⟨0, 0⟩, 0, 0⟩).1.command_position = ⟨1, 1⟩ ∧
      ((BoxCommand.mk .Box ⟨0, 0⟩ ⟨0, 0⟩ ⟨1, 0⟩).read
          (IStream.ofString (boxText 18446744073709551616 2 1 1))
          ⟨⟨0, 0⟩, ⟨0, 0⟩, 0, 0⟩).1.box_rotation = ⟨1, 0⟩) := by
  decide

/-- C6, amended: for all `w`, `h` that an `unsigned long int` holds and all `x`, `y` that a
`long int` holds, `BoxCommand::read` of the text "B w h x y ;" yields the size
(w, h), the position (x, y) and the rotation (1, 0). -/
theorem BoxCommand.read_box_without_rotation (command : BoxCommand) (locals : BoxLocals)
    (w h : Nat) (x y : Int) (hw : w ≤ ULONG_MAX) (hh : h ≤ ULONG_MAX)
    (hx : LONG_MIN ≤ x ∧ x ≤ LONG_MAX) (hy : LONG_MIN ≤ y ∧ y ≤ LONG_MAX) :
    (command.read (IStream.ofString (boxText w h x y)) locals).1.box_size = ⟨w, h⟩ ∧
    (command.read (IStream.ofString (boxText w h x y)) locals).1.command_position = ⟨x, y⟩ ∧
    (command.read (IStream.ofString (boxText w h x y)) locals).1.box_rotation = ⟨1, 0⟩ := by
  rw [BoxCommand.read_boxText command locals w h x y hw hh hx hy]
  exact ⟨rfl, rfl, rfl⟩

/-- The instance of C6 of the spec: "B 4 2 1 1 ;" gives the size (4, 2), the position
(1, 1) and the rotation (1, 0). -/
theorem BoxCommand.read_box_without_rotation_witness :
    boxText 4 2 1 1 = bytes "B 4 2 1 1 ;" ∧
    ((BoxCommand.mk .Box ⟨0, 0⟩ ⟨0, 0⟩ ⟨7, 7⟩).read (IStream.ofString (boxText 4 2 1 1))
        ⟨⟨0, 0⟩, ⟨0, 0⟩, 0, 0⟩).1.box_size = ⟨4, 2⟩ ∧
    ((BoxCommand.mk .Box ⟨0, 0⟩ ⟨0, 0⟩ ⟨7, 7⟩).read (IStream.ofString (boxText 4 2 1 1))
        ⟨⟨0, 0⟩, ⟨0, 0⟩, 0, 0⟩).1.command_position = ⟨1, 1⟩ ∧
    ((BoxCommand.mk .Box ⟨0, 0⟩ ⟨0, 0⟩ ⟨7, 7⟩).read (IStream.ofString (boxText 4 2 1 1))
        ⟨⟨0, 0⟩, ⟨0, 0⟩, 0, 0⟩).1.box_rotation = ⟨1, 0⟩ :=
  ⟨by decide,
    BoxCommand.read_box_without_rotation ⟨.Box, ⟨0, 0⟩, ⟨0, 0⟩, ⟨7, 7⟩⟩
      ⟨⟨0, 0⟩, ⟨0, 0⟩, 0, 0⟩ 4 2 1 1 (by decide) (by decide) (by decide) (by decide)⟩

/-- C7, as stated, fails: in the text "B 4 2 1 1 9223372036854775808 1 ;" the first
rotation token is 2^63, which no `long int` holds; the extraction of `x` fails
and the rotation read is (2^63 - 1, 1), not (2^63, 1). -/
theorem BoxCommand.read_boxRotationText_out_of_range :
    ((BoxCommand.mk .Box ⟨0, 0⟩ ⟨0, 0⟩ ⟨1, 0⟩).read
        (IStream.ofString (boxRotationText 4 2 1 1 9223372036854775808 1))
        ⟨⟨0, 0⟩, ⟨0, 0⟩, 0, 0⟩).1.box_rotation = ⟨9223372036854775807, 1⟩ ∧
    ((BoxCommand.mk .Box ⟨0, 0⟩ ⟨0, 0⟩ ⟨1, 0⟩).read
        (IStream.ofString (boxRotationText 4 2 1 1 9223372036854775808 1))
        ⟨⟨0, 0⟩, ⟨0, 0⟩, 0, 0⟩).1.box_rotation ≠ ⟨9223372036854775808, 1⟩ := by
  decide

/-- C7, amended: for all `w`, `h` that an `unsigned long int` holds and all `x`, `y`, `rx`,
`ry` that a `long int` holds, `BoxCommand::read` of the text "B w h x y rx ry ;"
yields the size (w, h), the position (x, y) and the rotation (rx, ry). -/
theorem BoxCommand.read_box_with_rotation (command : BoxCommand) (locals : BoxLocals)
    (w h : Nat) (x y rx ry : Int) (hw : w ≤ ULONG_MAX) (hh : h ≤ ULONG_MAX)
    (hx : LONG_MIN ≤ x ∧ x ≤ LONG_MAX) (hy : LONG_MIN ≤ y ∧ y ≤ LONG_MAX)
    (hrx : LONG_MIN ≤ rx ∧ rx ≤ LONG_MAX) (hry : LONG_MIN ≤ ry ∧ ry ≤ LONG_MAX) :
    (command.read (IStream.ofString (boxRotationText w h x y rx ry)) locals).1.box_size =
      ⟨w, h⟩ ∧
    (command.read (IStream.ofString (boxRotationText w h x y rx ry)) locals).1.command_position
      = ⟨x, y⟩ ∧
    (command.read (IStream.ofString (boxRotationText w h x y rx ry)) locals).1.box_rotation =
      ⟨rx, ry⟩ := by
  rw [BoxCommand.read_boxRotationText command locals w h x y rx ry hw hh hx hy hrx hry]
  exact ⟨rfl, rfl, rfl⟩

/-- The instance of C7 of the spec: "B 4 2 1 1 0 1 ;" gives the rotation (0, 1). -/
theorem BoxCommand.read_box_with_rotation_witness :
    boxRotationText 4 2 1 1 0 1 = bytes "B 4 2 1 1 0 1 ;" ∧
    ((BoxCommand.mk .Box ⟨0, 0⟩ ⟨0, 0⟩ ⟨1, 0⟩).read
        (IStream.ofString (boxRotationText 4 2 1 1 0 1)) ⟨⟨0, 0⟩, ⟨0, 0⟩, 0, 0⟩).1.box_size =
      ⟨4, 2⟩ ∧
    ((BoxCommand.mk .Box ⟨0, 0⟩ ⟨0, 0⟩ ⟨1, 0⟩).read
        (IStream.ofString (boxRotationText 4 2 1 1 0 1))
        ⟨⟨0, 0⟩, ⟨0, 0⟩, 0, 0⟩).1.command_position = ⟨1, 1⟩ ∧
    ((BoxCommand.mk .Box ⟨0, 0⟩ ⟨0, 0⟩ ⟨1, 0⟩).read
        (IStream.ofString (boxRotationText 4 2 1 1 0 1))
        ⟨⟨0, 0⟩, ⟨0, 0⟩, 0, 0⟩).1.box_rotation = ⟨0, 1⟩ :=
  ⟨by decide,
    BoxCommand.read_box_with_rotation ⟨.Box, ⟨0, 0⟩, ⟨0, 0⟩, ⟨1, 0⟩⟩
      ⟨⟨0, 0⟩, ⟨0, 0⟩, 0, 0⟩ 4 2 1 1 0 1 (by decide) (by decide) (by decide) (by decide)
      (by decide) (by decide)⟩

/-- C8, as stated, fails: in the text "D D 18446744073709551616 ;" the number is 2^64, which
no `unsigned long int` holds; the command built from it has the ID 2^64 - 1 and
prints as "D D 18446744073709551615 ;". -/
theorem DefinitionDeleteCommand.ofString_out_of_range :
    (DefinitionDeleteCommand.ofString (definitionDeleteText 18446744073709551616) 0
        0).command_id = 18446744073709551615 ∧
    (DefinitionDeleteCommand.ofString (definitionDeleteText 18446744073709551616) 0 0).print ≠
      definitionDeleteText 18446744073709551616 := by
  decide

/-- C8, amended: for every `n` that an `unsigned long int` holds, the
`DefinitionDeleteCommand` built from the text "D D n ;" has the ID `n`, and its
`print` emits exactly "D D n ;". -/
theorem DefinitionDeleteCommand.ofString_print (n command_id id : Nat)
    (hn : n ≤ ULONG_MAX) :
    (DefinitionDeleteCommand.ofString (definitionDeleteText n) command_id id).command_id = n ∧
    (DefinitionDeleteCommand.ofString (definitionDeleteText n) command_id id).print =
      definitionDeleteText n := by
  unfold DefinitionDeleteCommand.ofString
  rw [DefinitionDeleteCommand.read_definitionDeleteText _ n id hn,
    DefinitionDeleteCommand.print_eq_definitionDeleteText]
  exact ⟨rfl, rfl⟩

/-- The instance of C8 of the spec: "D D 7 ;" gives the ID 7 and is printed back as
"D D 7 ;". -/
theorem DefinitionDeleteCommand.ofString_print_witness :
    definitionDeleteText 7 = bytes "D D 7 ;" ∧
    (DefinitionDeleteCommand.ofString (definitionDeleteText 7) 0 0).command_id = 7 ∧
    (DefinitionDeleteCommand.ofString (definitionDeleteText 7) 0 0).print =
      definitionDeleteText 7 :=
  ⟨by decide, DefinitionDeleteCommand.ofString_print 7 0 0 (by decide)⟩

/-! ## The grammar on the canonical texts: claims C9 and C10 -/

theorem reached_digits (q : Int) (ds : List Byte) (hds : ∀ d ∈ ds, isDigitByte d = true)
    (hq : ∀ b : Byte, isDigitByte b = true → delta q b = q) : reached q ds = q := by
  induction ds with
  | nil => rfl
  | cons d ds ih =>
    rw [reached_cons, hq d (hds d (List.mem_cons_self _ _))]
    exact ih fun c hc => hds c (List.mem_cons_of_mem _ hc)

/-- A number without sign leads from a state `q` to the digit state `q2`, when every digit
leads from `q` to `q2` and from `q2` to itself. -/
theorem reached_printULong (q q2 : Int) (n : Nat)
    (h1 : ∀ b : Byte, isDigitByte b = true → delta q b = q2)
    (h2 : ∀ b : Byte, isDigitByte b = true → delta q2 b = q2) :
    reached q (printULong n) = q2 := by
  obtain ⟨d, ds, hd⟩ := List.exists_cons_of_ne_nil (printULong_ne_nil n)
  have hdig := printULong_digits n
  rw [hd] at hdig ⊢
  rw [reached_cons, h1 d (hdig d (List.mem_cons_self _ _))]
  exact reached_digits q2 ds (fun c hc => hdig c (List.mem_cons_of_mem _ hc)) h2

/-- A number with an optional '-' leads from a state `q` to the digit state `q2`, when '-'
leads from `q` to `qm`, and every digit from `q`, `qm` and `q2` to `q2`. -/
theorem reached_printLong (q qm q2 : Int) (x : Int) (hm : delta q 45 = qm)
    (h0 : ∀ b : Byte, isDigitByte b = true → delta qm b = q2)
    (h1 : ∀ b : Byte, isDigitByte b = true → delta q b = q2)
    (h2 : ∀ b : Byte, isDigitByte b = true → delta q2 b = q2) :
    reached q (printLong x) = q2 := by
  unfold printLong
  split
  · rw [reached_cons, hm]
    exact reached_printULong qm q2 _ h0 h2
  · exact reached_printULong q q2 _ h1 h2

set_option maxRecDepth 100000 in
theorem box_digitSteps :
    digitSteps [(14, 15), (15, 15), (16, 17), (17, 17), (18, 20), (19, 20), (20, 20),
      (21, 23), (22, 23), (23, 23), (24, 26), (25, 26), (26, 26), (27, 29), (28, 29),
      (29, 29)] := by
  unfold digitSteps
  decide

theorem box_step (q q2 : Int)
    (h : (q, q2) ∈ [((14 : Int), (15 : Int)), (15, 15), (16, 17), (17, 17), (18, 20), (19, 20),
      (20, 20), (21, 23), (22, 23), (23, 23), (24, 26), (25, 26), (26, 26), (27, 29),
      (28, 29), (29, 29)]) :
    ∀ b : Byte, isDigitByte b = true → delta q b = q2 :=
  box_digitSteps (q, q2) h

theorem reached_14_number (n : Nat) : reached 14 (printULong n) = 15 :=
  reached_printULong 14 15 n (box_step 14 15 (by decide)) (box_step 15 15 (by decide))

theorem reached_16_number (n : Nat) : reached 16 (printULong n) = 17 :=
  reached_printULong 16 17 n (box_step 16 17 (by decide)) (box_step 17 17 (by decide))

theorem reached_18_number (x : Int) : reached 18 (printLong x) = 20 :=
  reached_printLong 18 19 20 x (by decide) (box_step 19 20 (by decide))
    (box_step 18 20 (by decide)) (box_step 20 20 (by decide))

theorem reached_21_number (x : Int) : reached 21 (printLong x) = 23 :=
  reached_printLong 21 22 23 x (by decide) (box_step 22 23 (by decide))
    (box_step 21 23 (by decide)) (box_step 23 23 (by decide))

theorem reached_24_number (x : Int) : reached 24 (printLong x) = 26 :=
  reached_printLong 24 25 26 x (by decide) (box_step 25 26 (by decide))
    (box_step 24 26 (by decide)) (box_step 26 26 (by decide))

theorem reached_27_number (x : Int) : reached 27 (printLong x) = 29 :=
  reached_printLong 27 28 29 x (by decide) (box_step 28 29 (by decide))
    (box_step 27 29 (by decide)) (box_step 29 29 (by decide))

theorem reached_take_ne_error (s : List Byte) (q : Int) (k : Nat) (h : reached q s ≠ -1) :
    reached q (s.take k) ≠ -1 :=
  fun h2 => h (reached_of_take_error s q k h2)

/-- The text "B w h x y" leads from state 1 to state 23. -/
theorem reached_box_position (w h : Nat) (x y : Int) :
    reached 1 (bytes "B " ++ printULong w ++ bytes " " ++ printULong h ++ bytes " " ++
      printLong x ++ bytes " " ++ printLong y) = 23 := by
  have e1 : reached 1 (bytes "B ") = 14 := by decide
  have e2 : reached 15 (bytes " ") = 16 := by decide
  have e3 : reached 17 (bytes " ") = 18 := by decide
  have e4 : reached 20 (bytes " ") = 21 := by decide
  simp only [reached_append, e1, reached_14_number, e2, reached_16_number, e3,
    reached_18_number, e4, reached_21_number]

/-- The text "B w h x y rx ry" leads from state 1 to state 29. -/
theorem reached_box_rotation (w h : Nat) (x y rx ry : Int) :
    reached 1 (bytes "B " ++ printULong w ++ bytes " " ++ printULong h ++ bytes " " ++
      printLong x ++ bytes " " ++ printLong y ++ bytes " " ++ printLong rx ++ bytes " " ++
      printLong ry) = 29 := by
  have e1 : reached 23 (bytes " ") = 24 := by decide
  have e2 : reached 26 (bytes " ") = 27 := by decide
  rw [reached_append, reached_append, reached_append, reached_append, reached_box_position,
    e1, reached_24_number, e2, reached_27_number]

theorem take_length_of_eq_append (t l r : List Byte) (h : t = l ++ r) :
    t.take l.length = l := by
  rw [h]; simp

/-- C9: every canonical Box text is valid for the grammar engine. For all `w`, `h`, `x`,
`y`, `rx`, `ry`, the engine fed from state 1 with "B w h x y ;", or with what
`BoxCommand::print` emits ("B w h x y rx ry ;"), never meets the error marker,
passes through state 23 (and through state 29 when the rotation is there), and
ends back in state 1. -/
theorem box_texts_valid (w h : Nat) (x y rx ry : Int) :
    (run 1 (boxText w h x y) = 1 ∧
      (∀ k, run 1 ((boxText w h x y).take k) ≠ -1) ∧
      (∃ k, run 1 ((boxText w h x y).take k) = 23)) ∧
    (run 1 (BoxCommand.mk .Box ⟨x, y⟩ ⟨w, h⟩ ⟨rx, ry⟩).print = 1 ∧
      (∀ k, run 1 ((BoxCommand.mk .Box ⟨x, y⟩ ⟨w, h⟩ ⟨rx, ry⟩).print.take k) ≠ -1) ∧
      (∃ k, run 1 ((BoxCommand.mk .Box ⟨x, y⟩ ⟨w, h⟩ ⟨rx, ry⟩).print.take k) = 23) ∧
      (∃ k, run 1 ((BoxCommand.mk .Box ⟨x, y⟩ ⟨w, h⟩ ⟨rx, ry⟩).print.take k) = 29)) := by
  have e1 : reached 23 (bytes " ;") = 1 := by decide
  have e2 : reached 29 (bytes " ;") = 1 := by decide
  have h1 : reached 1 (boxText w h x y) = 1 := by
    unfold boxText
    rw [reached_append, reached_box_position, e1]
  have h2 : reached 1 (boxRotationText w h x y rx ry) = 1 := by
    unfold boxRotationText
    rw [reached_append, reached_box_rotation, e2]
  simp only [run_eq_reached, BoxCommand.print_eq_text]
  refine ⟨⟨h1, ?_, ?_⟩, h2, ?_, ?_, ?_⟩
  · intro k
    exact reached_take_ne_error _ 1 k (by rw [h1]; decide)
  · refine ⟨(bytes "B " ++ printULong w ++ bytes " " ++ printULong h ++ bytes " " ++
      printLong x ++ bytes " " ++ printLong y).length, ?_⟩
    rw [take_length_of_eq_append (boxText w h x y) _ (bytes " ;") rfl]
    exact reached_box_position w h x y
  · intro k
    exact reached_take_ne_error _ 1 k (by rw [h2]; decide)
  · refine ⟨(bytes "B " ++ printULong w ++ bytes " " ++ printULong h ++ bytes " " ++
      printLong x ++ bytes " " ++ printLong y).length, ?_⟩
    rw [take_length_of_eq_append (boxRotationText w h x y rx ry) _
      (bytes " " ++ printLong rx ++ bytes " " ++ printLong ry ++ bytes " ;")
      (by simp [boxRotationText, List.append_assoc])]
    exact reached_box_position w h x y
  · refine ⟨(bytes "B " ++ printULong w ++ bytes " " ++ printULong h ++ bytes " " ++
      printLong x ++ bytes " " ++ printLong y ++ bytes " " ++ printLong rx ++ bytes " " ++
      printLong ry).length, ?_⟩
    rw [take_length_of_eq_append (boxRotationText w h x y rx ry) _ (bytes " ;") rfl]
    exact reached_box_rotation w h x y rx ry

set_option maxRecDepth 100000 in
/-- C10 (evaluation of the code): the polygon of the three points (1, 2), (3, 4), (5, 6) is
the text "P 1 2 3 4 5 6 ;", and the engine rejects it: after the second point the
separator leads from state 13 to the digit state 7, the third point is read as
the end of a pair, and the final ';' has no transition from state 11. -/
theorem polygon_three_points_rejected :
    polygonText [⟨1, 2⟩, ⟨3, 4⟩, ⟨5, 6⟩] = bytes "P 1 2 3 4 5 6 ;" ∧
    run 1 (bytes "P 1 2 3 4") = 13 ∧
    run 1 (bytes "P 1 2 3 4 ") = 7 ∧
    run 1 (bytes "P 1 2 3 4 5 6 ") = 11 ∧
    run 1 (polygonText [⟨1, 2⟩, ⟨3, 4⟩, ⟨5, 6⟩]) = -1 ∧
    validateSintax (polygonText [⟨1, 2⟩, ⟨3, 4⟩, ⟨5, 6⟩]) =
      { status := .IncorrectInputFile, message_state := some 11, message_char := some 59,
        jump_state := -1, lookups := 15 } := by
  simp only [run_eq_reached, validateSintax_eq_closed]
  decide

/-! ## The grammar, state by state: claims C11 to C13, C17 and C20 -/

/-- An entry after some calls is the entry before them, or the target of one of the calls
that cover it. -/
theorem entryAfter_eq_or_mem (n q : Int) (b : Byte) (l : List CIFFSM.Call) (e : Int) :
    entryAfter n q b l e = e ∨
      ∃ c ∈ l, q = c.input_state ∧ c.covers b = true ∧ entryAfter n q b l e = c.output_state := by
  induction l generalizing e with
  | nil => exact Or.inl rfl
  | cons c l ih =>
    have hstep : entryAfter n q b (c :: l) e =
        entryAfter n q b l
          (if q = c.input_state ∧ 1 ≤ q ∧ q ≤ n ∧ c.covers b = true then c.output_state
            else e) := rfl
    rw [hstep]
    rcases ih (if q = c.input_state ∧ 1 ≤ q ∧ q ≤ n ∧ c.covers b = true then c.output_state
        else e) with h | ⟨c2, hc2, h1, h2, h3⟩
    · by_cases hc : q = c.input_state ∧ 1 ≤ q ∧ q ≤ n ∧ c.covers b = true
      · rw [if_pos hc] at h
        exact Or.inr ⟨c, List.mem_cons_self _ _, hc.1, hc.2.2.2, by rw [if_pos hc]; exact h⟩
      · rw [if_neg hc] at h ⊢
        exact Or.inl h
    · exact Or.inr ⟨c2, List.mem_cons_of_mem _ hc2, h1, h2, h3⟩

/-- A transition of the grammar is the error marker or the target of a call of the
constructor that covers the byte from that state. -/
theorem delta_eq_error_or_mem (q : Int) (b : Byte) :
    delta q b = -1 ∨
      ∃ c ∈ CIFFSM.calls, q = c.input_state ∧ c.covers b = true ∧ delta q b = c.output_state :=
  entryAfter_eq_or_mem 89 q b CIFFSM.calls (-1)

theorem reached_loop (q : Int) (p : Byte → Bool) (s : List Byte)
    (hs : ∀ b ∈ s, p b = true) (hq : ∀ b : Byte, p b = true → delta q b = q) :
    reached q s = q := by
  induction s with
  | nil => rfl
  | cons d s ih =>
    rw [reached_cons, hq d (hs d (List.mem_cons_self _ _))]
    exact ih fun c hc => hs c (List.mem_cons_of_mem _ hc)

set_option maxRecDepth 100000 in
/-- C11 (evaluation of the code): the engine rejects the text of every
`DefinitionDeleteCommand`: 'D' leads from state 1 to state 57, for which the
constructor configures no transition, so the space after it meets the error
marker. For "D D 7 ;" `validateSintax` returns `IncorrectInputFile` with the
state 57 and the byte ' ' (32) after two lookups. -/
theorem definition_delete_text_rejected :
    (∀ (t : CommandType) (n : Nat), run 1 (DefinitionDeleteCommand.mk t n).print = -1) ∧
    (DefinitionDeleteCommand.mk .DefinitionDelete 7).print = bytes "D D 7 ;" ∧
    run 1 (bytes "D") = 57 ∧
    (∀ b : Byte, CIFFSM.new.next 57 b = -1) ∧
    validateSintax (bytes "D D 7 ;") =
      { status := .IncorrectInputFile, message_state := some 57, message_char := some 32,
        jump_state := -1, lookups := 2 } := by
  simp only [run_eq_reached, validateSintax_eq_closed, CIFFSM.next_new]
  refine ⟨?_, by decide, by decide, by decide, by decide⟩
  intro t n
  rw [DefinitionDeleteCommand.print_eq_definitionDeleteText, definitionDeleteText_eq]
  have e : reached 1 [68, 32] = -1 := by decide
  have e2 : (68 : Byte) :: 32 :: 68 :: 32 :: (printULong n ++ [32, 59]) =
      [68, 32] ++ (68 :: 32 :: (printULong n ++ [32, 59])) := rfl
  rw [e2, reached_append, e, reached_error]

set_option maxRecDepth 100000 in
/-- C12, as stated, fails: on "P1A" the letter 'A' is a separator, the engine moves from
state 4 to state 5 and `validateSintax` returns `IncompleteInputFile`, not
`IncorrectInputFile`. -/
theorem letter_after_digit_not_invalid :
    run 1 (bytes "P1") = 4 ∧
    validateSintax (bytes "P1A") =
      { status := .IncompleteInputFile, message_state := none, message_char := none,
        jump_state := 5, lookups := 3 } := by
  simp only [run_eq_reached, validateSintax_eq_closed]
  decide

set_option maxRecDepth 100000 in
/-- C12, amended: from state 4 every letter, upper case or lower case, leads to the
separator state 5, and "P1" followed by a letter is `IncompleteInputFile`; the
bytes without transition from state 4 are exactly '-', '(', ')' and ';', and for
"P1" followed by one of them `validateSintax` returns `IncorrectInputFile` with
the state 4 and that byte. -/
theorem state_four_next_byte (b : Byte) :
    ((isupper b.val = true ∨ (97 ≤ b.val ∧ b.val ≤ 122)) →
      CIFFSM.new.next 4 b = 5 ∧
      (validateSintax (bytes "P1" ++ [b])).status = .IncompleteInputFile ∧
      (validateSintax (bytes "P1" ++ [b])).jump_state = 5) ∧
    (CIFFSM.new.next 4 b = -1 ↔ (b.val = 45 ∨ b.val = 40 ∨ b.val = 41 ∨ b.val = 59)) ∧
    (CIFFSM.new.next 4 b = -1 →
      (validateSintax (bytes "P1" ++ [b])).status = .IncorrectInputFile ∧
      (validateSintax (bytes "P1" ++ [b])).message_state = some 4 ∧
      (validateSintax (bytes "P1" ++ [b])).message_char = some b) := by
  simp only [validateSintax_eq_closed, CIFFSM.next_new]
  revert b
  decide

theorem entryAfter_filter (n q : Int) (b : Byte) (l : List CIFFSM.Call) (e : Int) :
    entryAfter n q b (l.filter (fun c => decide (c.input_state = q))) e =
      entryAfter n q b l e := by
  induction l generalizing e with
  | nil => rfl
  | cons c l ih =>
    have hstep : ∀ (l2 : List CIFFSM.Call) (e2 : Int), entryAfter n q b (c :: l2) e2 =
        entryAfter n q b l2
          (if q = c.input_state ∧ 1 ≤ q ∧ q ≤ n ∧ c.covers b = true then c.output_state
            else e2) := fun _ _ => rfl
    by_cases hc : c.input_state = q
    · rw [List.filter_cons_of_pos (by simpa using hc), hstep, hstep, ih]
    · rw [List.filter_cons_of_neg (by simpa using hc), ih, hstep]
      have : ¬ (q = c.input_state ∧ 1 ≤ q ∧ q ≤ n ∧ c.covers b = true) :=
        fun h => hc h.1.symm
      rw [if_neg this]

/-- The transition function only depends on the calls that configure the state. -/
theorem delta_eq_deltaOf (q : Int) (b : Byte) : delta q b = deltaOf q b :=
  (entryAfter_filter 89 q b CIFFSM.calls (-1)).symm

set_option maxRecDepth 100000 in
theorem calls_minus_targets :
    ∀ c ∈ CIFFSM.calls, c.covers 45 = true →
      c.output_state ∈ [(3 : Int), 6, 9, 12, 19, 22, 25, 28] := by
  decide

set_option maxRecDepth 100000 in
theorem minus_states_digits_only :
    ∀ q ∈ [(3 : Int), 6, 9, 12, 19, 22, 25, 28], ∀ b : Byte,
      (isDigitByte b = true → delta q b = q + 1) ∧ (isDigitByte b = false → delta q b = -1) ∧
      (isDigitByte b = true → delta (q + 1) b = q + 1) := by
  simp only [delta_eq_deltaOf]
  decide

set_option maxRecDepth 100000 in
/-- C13: a bare '-' is invalid. The states entered by a '-' transition are 3, 6, 9, 12
(polygon) and 19, 22, 25, 28 (box), all of them entered; from each of them every
byte that is not a digit meets the error marker, and every digit leads to the
next state, which is a digit state (it loops on every digit). -/
theorem bare_minus_invalid :
    (∀ q q2 : Int, CIFFSM.new.next q 45 = q2 → q2 ≠ -1 →
      q2 ∈ [(3 : Int), 6, 9, 12, 19, 22, 25, 28]) ∧
    (CIFFSM.new.next 2 45 = 3 ∧ CIFFSM.new.next 5 45 = 6 ∧ CIFFSM.new.next 8 45 = 9 ∧
      CIFFSM.new.next 11 45 = 12 ∧ CIFFSM.new.next 18 45 = 19 ∧
      CIFFSM.new.next 21 45 = 22 ∧ CIFFSM.new.next 24 45 = 25 ∧
      CIFFSM.new.next 27 45 = 28) ∧
    (∀ q ∈ [(3 : Int), 6, 9, 12, 19, 22, 25, 28], ∀ b : Byte,
      (isDigitByte b = true → CIFFSM.new.next q b = q + 1) ∧
      (isDigitByte b = false → CIFFSM.new.next q b = -1) ∧
      (isDigitByte b = true → CIFFSM.new.next (q + 1) b = q + 1)) := by
  simp only [CIFFSM.next_new]
  refine ⟨?_, by decide, minus_states_digits_only⟩
  intro q q2 h hne
  rcases delta_eq_error_or_mem q 45 with h1 | ⟨c, hc, _, h2, h3⟩
  · rw [h] at h1; exact absurd h1 hne
  · rw [← h, h3]
    exact calls_minus_targets c hc h2

set_option maxRecDepth 100000 in
theorem calls_targets_in_range :
    ∀ c ∈ CIFFSM.calls, 1 ≤ c.output_state ∧ c.output_state ≤ 89 := by
  decide

theorem new_state_count : CIFFSM.new.fsm_state_count = 89 := by
  unfold CIFFSM.new
  rw [CIFFSM.foldl_call_state_count]
  rfl

/-- C17: every call of `add` of the constructor targets a state in 1..89, and 89 is the
number of states of the engine; so every lookup of the engine, from any state
and for any byte, is the error marker -1 or a state in 1..89. -/
theorem targets_in_range :
    CIFFSM.new.fsm_state_count = 89 ∧
    (∀ c ∈ CIFFSM.calls, 1 ≤ c.output_state ∧ c.output_state ≤ CIFFSM.new.fsm_state_count) ∧
    (∀ (s : Int) (b : Byte), CIFFSM.new.next s b = -1 ∨
      (1 ≤ CIFFSM.new.next s b ∧ CIFFSM.new.next s b ≤ CIFFSM.new.fsm_state_count)) := by
  simp only [CIFFSM.next_new, new_state_count]
  refine ⟨trivial, calls_targets_in_range, ?_⟩
  intro s b
  rcases delta_eq_error_or_mem s b with h | ⟨c, hc, _, _, h3⟩
  · exact Or.inl h
  · rw [h3]; exact Or.inr (calls_targets_in_range c hc)

set_option maxRecDepth 100000 in
theorem digit_states_loop :
    ∀ q ∈ [(4 : Int), 7, 10, 13, 15, 17, 20, 23, 26, 29], ∀ b : Byte,
      Transition.member .Digit b = true → delta q b = q := by
  simp only [delta_eq_deltaOf]
  decide

set_option maxRecDepth 100000 in
theorem separator_states_loop :
    ∀ q ∈ [(5 : Int), 8, 11, 16, 18, 21, 24, 27, 30], ∀ b : Byte,
      Transition.member .SeparatorChar b = true → delta q b = q := by
  simp only [delta_eq_deltaOf]
  decide

/-- C20: in the polygon and box states, every digit state (4, 7, 10, 13, 15, 17, 20, 23,
26, 29) loops to itself on every byte of `Digit`, and every separator state (5,
8, 11, 16, 18, 21, 24, 27, 30) on every byte of `SeparatorChar`; so a run of
digits, or of separators, of any length leaves the state unchanged. -/
theorem digit_and_separator_loops :
    (∀ q ∈ [(4 : Int), 7, 10, 13, 15, 17, 20, 23, 26, 29],
      (∀ b : Byte, Transition.member .Digit b = true → CIFFSM.new.next q b = q) ∧
      (∀ ds : List Byte, (∀ d ∈ ds, Transition.member .Digit d = true) → run q ds = q)) ∧
    (∀ q ∈ [(5 : Int), 8, 11, 16, 18, 21, 24, 27, 30],
      (∀ b : Byte, Transition.member .SeparatorChar b = true → CIFFSM.new.next q b = q) ∧
      (∀ s : List Byte, (∀ d ∈ s, Transition.member .SeparatorChar d = true) →
        run q s = q)) := by
  simp only [CIFFSM.next_new, run_eq_reached]
  refine ⟨fun q hq => ⟨digit_states_loop q hq, fun ds hds => ?_⟩,
    fun q hq => ⟨separator_states_loop q hq, fun s hs => ?_⟩⟩
  · exact reached_loop q _ ds hds (digit_states_loop q hq)
  · exact reached_loop q _ s hs (separator_states_loop q hq)

/-! ## The groups of characters: claims C14 to C16 -/

theorem member_Digit_iff (b : Byte) :
    Transition.member .Digit b = true ↔ (48 ≤ b.val ∧ b.val ≤ 57) := by
  simp only [Transition.member, decide_eq_true_eq]; omega

theorem member_UpperChar_iff (b : Byte) :
    Transition.member .UpperChar b = true ↔ (65 ≤ b.val ∧ b.val ≤ 90) := by
  simp only [Transition.member, decide_eq_true_eq]; omega

theorem member_BlankChar_iff (b : Byte) :
    Transition.member .BlankChar b = true ↔
      (¬ (48 ≤ b.val ∧ b.val ≤ 57) ∧ ¬ (65 ≤ b.val ∧ b.val ≤ 90) ∧ b.val ≠ 45 ∧ b.val ≠ 40 ∧
        b.val ≠ 41 ∧ b.val ≠ 59) := by
  simp only [Transition.member, isdigit, isupper, Bool.not_eq_true', Bool.or_eq_false_iff,
    decide_eq_false_iff_not, beq_eq_false_iff_ne, ne_eq]
  tauto

theorem member_SeparatorChar_iff (b : Byte) :
    Transition.member .SeparatorChar b = true ↔
      (Transition.member .UpperChar b = true ∨ Transition.member .BlankChar b = true) := by
  simp only [Transition.member, Bool.or_eq_true]

theorem member_LayerNameChar_iff (b : Byte) :
    Transition.member .LayerNameChar b = true ↔
      (Transition.member .Digit b = true ∨ Transition.member .UpperChar b = true) := by
  simp only [Transition.member, Bool.or_eq_true]

theorem member_CommentChar_iff (b : Byte) :
    Transition.member .CommentChar b = true ↔ b.val ≠ 40 := by
  simp [Transition.member]

theorem next_add_congr (fsm : FiniteStateMachine) (s t q : Int) (g : Transition) (b : Byte)
    (p : Prop) [Decidable p] (h : g.member b = true ↔ p) :
    (CIFFSM.add fsm s g t).next q b =
      if q = s ∧ 1 ≤ q ∧ q ≤ fsm.fsm_state_count ∧ p then t else fsm.next q b := by
  rw [CIFFSM.next_add]
  have : (q = s ∧ 1 ≤ q ∧ q ≤ fsm.fsm_state_count ∧ g.member b = true) ↔
      (q = s ∧ 1 ≤ q ∧ q ≤ fsm.fsm_state_count ∧ p) := by rw [h]
  exact if_congr this rfl rfl

set_option maxRecDepth 100000 in
/-- C14: `add` with `BlankChar` installs the transition for exactly the bytes that are not
a digit, not an upper-case letter and not one of '-', '(', ')', ';' (the entry
of any other byte, and of any other state, is left as it was): 216 bytes, among
them the lower-case letters and the control bytes. `add` with `Digit` installs
it for exactly '0'..'9', and with `UpperChar` for exactly 'A'..'Z'. -/
theorem blank_digit_upper_groups (fsm : FiniteStateMachine) (s t q : Int) (b : Byte) :
    ((CIFFSM.add fsm s .BlankChar t).next q b =
      if q = s ∧ 1 ≤ q ∧ q ≤ fsm.fsm_state_count ∧
          (¬ (48 ≤ b.val ∧ b.val ≤ 57) ∧ ¬ (65 ≤ b.val ∧ b.val ≤ 90) ∧ b.val ≠ 45 ∧
            b.val ≠ 40 ∧ b.val ≠ 41 ∧ b.val ≠ 59) then t
      else fsm.next q b) ∧
    ((List.finRange 256).filter (fun c : Byte =>
        decide (¬ (48 ≤ c.val ∧ c.val ≤ 57) ∧ ¬ (65 ≤ c.val ∧ c.val ≤ 90) ∧ c.val ≠ 45 ∧
          c.val ≠ 40 ∧ c.val ≠ 41 ∧ c.val ≠ 59))).length = 216 ∧
    ((1 ≤ s ∧ s ≤ fsm.fsm_state_count) →
      ((97 ≤ b.val ∧ b.val ≤ 122) ∨ b.val < 32 ∨ b.val = 127) →
      (CIFFSM.add fsm s .BlankChar t).next s b = t) ∧
    ((CIFFSM.add fsm s .Digit t).next q b =
      if q = s ∧ 1 ≤ q ∧ q ≤ fsm.fsm_state_count ∧ (48 ≤ b.val ∧ b.val ≤ 57) then t
      else fsm.next q b) ∧
    ((CIFFSM.add fsm s .UpperChar t).next q b =
      if q = s ∧ 1 ≤ q ∧ q ≤ fsm.fsm_state_count ∧ (65 ≤ b.val ∧ b.val ≤ 90) then t
      else fsm.next q b) := by
  refine ⟨next_add_congr fsm s t q _ b _ (member_BlankChar_iff b), by decide, ?_,
    next_add_congr fsm s t q _ b _ (member_Digit_iff b),
    next_add_congr fsm s t q _ b _ (member_UpperChar_iff b)⟩
  intro hs hb
  rw [next_add_congr fsm s t s _ b _ (member_BlankChar_iff b), if_pos]
  refine ⟨rfl, hs.1, hs.2, ?_⟩
  omega

/-- C15: `add` with `SeparatorChar` installs the transition for exactly the bytes of
`UpperChar` or `BlankChar`, that is for every byte but the digits and '-', '(',
')', ';'; `add` with `LayerNameChar` installs it for exactly the bytes of `Digit`
or `UpperChar`. -/
theorem separator_layer_name_groups (fsm : FiniteStateMachine) (s t q : Int) (b : Byte) :
    ((CIFFSM.add fsm s .SeparatorChar t).next q b =
      if q = s ∧ 1 ≤ q ∧ q ≤ fsm.fsm_state_count ∧
          (Transition.member .UpperChar b = true ∨ Transition.member .BlankChar b = true)
      then t else fsm.next q b) ∧
    ((CIFFSM.add fsm s .SeparatorChar t).next q b =
      if q = s ∧ 1 ≤ q ∧ q ≤ fsm.fsm_state_count ∧
          (¬ (48 ≤ b.val ∧ b.val ≤ 57) ∧ b.val ≠ 45 ∧ b.val ≠ 40 ∧ b.val ≠ 41 ∧ b.val ≠ 59)
      then t else fsm.next q b) ∧
    ((CIFFSM.add fsm s .LayerNameChar t).next q b =
      if q = s ∧ 1 ≤ q ∧ q ≤ fsm.fsm_state_count ∧
          (Transition.member .Digit b = true ∨ Transition.member .UpperChar b = true)
      then t else fsm.next q b) ∧
    ((CIFFSM.add fsm s .LayerNameChar t).next q b =
      if q = s ∧ 1 ≤ q ∧ q ≤ fsm.fsm_state_count ∧
          ((48 ≤ b.val ∧ b.val ≤ 57) ∨ (65 ≤ b.val ∧ b.val ≤ 90))
      then t else fsm.next q b) := by
  refine ⟨next_add_congr fsm s t q _ b _ (member_SeparatorChar_iff b),
    next_add_congr fsm s t q _ b _ ?_,
    next_add_congr fsm s t q _ b _ (member_LayerNameChar_iff b),
    next_add_congr fsm s t q _ b _ ?_⟩
  · rw [member_SeparatorChar_iff, member_UpperChar_iff, member_BlankChar_iff]
    omega
  · rw [member_LayerNameChar_iff, member_Digit_iff, member_UpperChar_iff]

set_option maxRecDepth 100000 in
/-- C16, as stated, fails: `add` with `CommentChar` on an empty engine of 89 states
installs no transition for '(' (40): the entry stays the error marker. -/
theorem comment_group_without_open_parenthesis :
    (CIFFSM.add (FiniteStateMachine.new 89) 1 .CommentChar 2).next 1 40 = -1 ∧
    (CIFFSM.add (FiniteStateMachine.new 89) 1 .CommentChar 2).next 1 40 ≠ 2 := by
  rw [CIFFSM.next_add]
  decide

set_option maxRecDepth 100000 in
/-- C16, amended: the test `!( i == '(' || i == '(' )` of `add` is false for '(' alone, so
`CommentChar` is every byte except '(': `add ( s , CommentChar , t )` installs the
transition `s -> t` for the 255 bytes other than '(' (')' among them), and leaves
the entry of '(', like the entries of every other state, as it was. -/
theorem comment_group (fsm : FiniteStateMachine) (s t q : Int) (b : Byte) :
    ((CIFFSM.add fsm s .CommentChar t).next q b =
      if q = s ∧ 1 ≤ q ∧ q ≤ fsm.fsm_state_count ∧ b.val ≠ 40 then t else fsm.next q b) ∧
    ((List.finRange 256).filter (fun c : Byte => decide (c.val ≠ 40))).length = 255 ∧
    ((1 ≤ s ∧ s ≤ fsm.fsm_state_count) → (CIFFSM.add fsm s .CommentChar t).next s 41 = t) ∧
    ((CIFFSM.add fsm s .CommentChar t).next q 40 = fsm.next q 40) := by
  refine ⟨next_add_congr fsm s t q _ b _ (member_CommentChar_iff b), by decide, ?_, ?_⟩
  · intro hs
    rw [next_add_congr fsm s t s _ 41 _ (member_CommentChar_iff 41), if_pos]
    exact ⟨rfl, hs.1, hs.2, by decide⟩
  · rw [next_add_congr fsm s t q _ 40 _ (member_CommentChar_iff 40), if_neg]
    intro h
    exact h.2.2.2 rfl

/-! ## Separators and malformed fields in the commands: claims C18 and C19 -/

theorem head_separation_space (s rest : List Byte) (hs : isSeparation s) :
    ∀ c ∈ (s ++ rest).head?, isspace c = true := by
  intro c hc
  rw [head?_append_of_ne_nil _ _ hs.1] at hc
  exact hs.2 c (List.mem_of_mem_head? hc)

theorem head_separation_not_digit (s rest : List Byte) (hs : isSeparation s) :
    ∀ c ∈ (s ++ rest).head?, isDigitByte c = false := by
  intro c hc
  have h := head_separation_space s rest hs c hc
  cases hd : isDigitByte c with
  | false => rfl
  | true => rw [isspace_of_isDigitByte c hd] at h; exact absurd h (by decide)

theorem readULong_separated (s s2 rest : List Byte) (n x : Nat) (hs : isSeparation s)
    (hs2 : isSeparation s2) (hn : n ≤ ULONG_MAX) :
    IStream.readULong { buf := s ++ (printULong n ++ (s2 ++ rest)), fail := false } x =
      ({ buf := s2 ++ rest, fail := false }, n) :=
  readULong_printULong s (s2 ++ rest) n x hs.2 (head_separation_not_digit s2 rest hs2) hn

theorem readLong_separated (s s2 rest : List Byte) (v x : Int) (hs : isSeparation s)
    (hs2 : isSeparation s2) (hv : LONG_MIN ≤ v ∧ v ≤ LONG_MAX) :
    IStream.readLong { buf := s ++ (printLong v ++ (s2 ++ rest)), fail := false } x =
      ({ buf := s2 ++ rest, fail := false }, v) :=
  readLong_printLong s (s2 ++ rest) v x hs.2 (head_separation_not_digit s2 rest hs2) hv

theorem readWord_B_separated (s rest word : List Byte) (hs : isSeparation s) :
    IStream.readWord { buf := 66 :: (s ++ rest), fail := false } word =
      ({ buf := s ++ rest, fail := false }, [66]) :=
  readWord_word [] [66] (s ++ rest) word (by simp) (by simp)
    (by intro b hb; rw [List.mem_singleton] at hb; rw [hb]; rfl)
    (head_separation_space s rest hs)

theorem readWord_end_separated (s word : List Byte) (hs : isSeparation s) :
    IStream.readWord { buf := s ++ [59], fail := false } word =
      ({ buf := [], fail := false }, [59]) := by
  have := readWord_word s [59] [] word hs.2 (by simp)
    (by intro b hb; rw [List.mem_singleton] at hb; rw [hb]; rfl) (by simp)
  simpa using this

theorem readWord_long_separated (s s2 rest word : List Byte) (v : Int) (hs : isSeparation s)
    (hs2 : isSeparation s2) :
    IStream.readWord { buf := s ++ (printLong v ++ (s2 ++ rest)), fail := false } word =
      ({ buf := s2 ++ rest, fail := false }, printLong v) :=
  readWord_word s (printLong v) (s2 ++ rest) word hs.2 (printLong_ne_nil v)
    (printLong_not_space v) (head_separation_space s2 rest hs2)

theorem boxTextSpaced_eq (s1 s2 s3 s4 s5 : List Byte) (w h : Nat) (x y : Int) :
    boxTextSpaced s1 s2 s3 s4 s5 w h x y =
      66 :: (s1 ++ (printULong w ++ (s2 ++ (printULong h ++ (s3 ++ (printLong x ++
        (s4 ++ (printLong y ++ (s5 ++ [59]))))))))) := by
  simp [boxTextSpaced, bytes_P, bytes_semicolon, show bytes "B" = [66] by decide]

theorem boxRotationTextSpaced_eq (s1 s2 s3 s4 s5 s6 s7 : List Byte) (w h : Nat)
    (x y rx ry : Int) :
    boxRotationTextSpaced s1 s2 s3 s4 s5 s6 s7 w h x y rx ry =
      66 :: (s1 ++ (printULong w ++ (s2 ++ (printULong h ++ (s3 ++ (printLong x ++
        (s4 ++ (printLong y ++ (s5 ++ (printLong rx ++ (s6 ++ (printLong ry ++
          (s7 ++ [59]))))))))))))) := by
  simp [boxRotationTextSpaced, bytes_semicolon, show bytes "B" = [66] by decide]

theorem BoxCommand.read_boxTextSpaced (command : BoxCommand) (locals : BoxLocals)
    (s1 s2 s3 s4 s5 : List Byte) (w h : Nat) (x y : Int)
    (h1 : isSeparation s1) (h2 : isSeparation s2) (h3 : isSeparation s3)
    (h4 : isSeparation s4) (h5 : isSeparation s5)
    (hw : w ≤ ULONG_MAX) (hh : h ≤ ULONG_MAX)
    (hx : LONG_MIN ≤ x ∧ x ≤ LONG_MAX) (hy : LONG_MIN ≤ y ∧ y ≤ LONG_MAX) :
    (command.read (IStream.ofString (boxTextSpaced s1 s2 s3 s4 s5 w h x y)) locals).1 =
      { command_type := command.command_type, command_position := { x := x, y := y },
        box_size := { width := w, height := h }, box_rotation := { x := 1, y := 0 } } := by
  have e5 : IStream.readLong { buf := s4 ++ (printLong y ++ (s5 ++ [59])), fail := false }
      locals.position.y = ({ buf := s5 ++ [59], fail := false }, y) :=
    readLong_separated s4 s5 [59] y _ h4 h5 hy
  simp only [BoxCommand.read, IStream.ofString, boxTextSpaced_eq, Size.read, Point.read,
    readWord_B_separated _ _ _ h1, readULong_separated _ _ _ _ _ h1 h2 hw,
    readULong_separated _ _ _ _ _ h2 h3 hh, readLong_separated _ _ _ _ _ h3 h4 hx, e5,
    readWord_end_separated _ _ h5, bytes_semicolon]
  simp

theorem BoxCommand.read_boxRotationTextSpaced (command : BoxCommand) (locals : BoxLocals)
    (s1 s2 s3 s4 s5 s6 s7 : List Byte) (w h : Nat) (x y rx ry : Int)
    (h1 : isSeparation s1) (h2 : isSeparation s2) (h3 : isSeparation s3)
    (h4 : isSeparation s4) (h5 : isSeparation s5) (h6 : isSeparation s6)
    (h7 : isSeparation s7)
    (hw : w ≤ ULONG_MAX) (hh : h ≤ ULONG_MAX)
    (hx : LONG_MIN ≤ x ∧ x ≤ LONG_MAX) (hy : LONG_MIN ≤ y ∧ y ≤ LONG_MAX)
    (hrx : LONG_MIN ≤ rx ∧ rx ≤ LONG_MAX) (hry : LONG_MIN ≤ ry ∧ ry ≤ LONG_MAX) :
    (command.read
        (IStream.ofString (boxRotationTextSpaced s1 s2 s3 s4 s5 s6 s7 w h x y rx ry))
        locals).1 =
      { command_type := command.command_type, command_position := { x := x, y := y },
        box_size := { width := w, height := h }, box_rotation := { x := rx, y := ry } } := by
  have e1 := readLong_word rx locals.x hrx
  simp only [IStream.ofString] at e1
  have e2 : IStream.readLong { buf := s6 ++ (printLong ry ++ (s7 ++ [59])), fail := false }
      locals.y = ({ buf := s7 ++ [59], fail := false }, ry) :=
    readLong_separated s6 s7 [59] ry _ h6 h7 hry
  simp only [BoxCommand.read, IStream.ofString, boxRotationTextSpaced_eq, Size.read,
    Point.read, readWord_B_separated _ _ _ h1, readULong_separated _ _ _ _ _ h1 h2 hw,
    readULong_separated _ _ _ _ _ h2 h3 hh, readLong_separated _ _ _ _ _ h3 h4 hx,
    readLong_separated _ _ _ _ _ h4 h5 hy, readWord_long_separated _ _ _ _ _ h5 h6,
    bytes_semicolon]
  rw [if_pos (printLong_ne_semicolon rx)]
  simp only [e1, e2]

set_option maxRecDepth 100000 in
/-- C18, as stated, fails: the engine accepts "B 4X2 1 1 ;" and "B4 2 1 1;" as boxes (both
lead from state 1 back to state 1), but `BoxCommand::read` does not parse them as
it parses "B 4 2 1 1 ;": for the first the extraction stops at 'X' and the size
read is (4, 0); for the second "B4" is the first word and the size read is
(2, 1). -/
theorem BoxCommand.read_letter_separators :
    run 1 (bytes "B 4X2 1 1 ;") = 1 ∧ run 1 (bytes "B4 2 1 1;") = 1 ∧
    ((BoxCommand.mk .Box ⟨0, 0⟩ ⟨0, 0⟩ ⟨1, 0⟩).read (IStream.ofString (bytes "B 4 2 1 1 ;"))
        ⟨⟨0, 0⟩, ⟨0, 0⟩, 0, 0⟩).1 = ⟨.Box, ⟨1, 1⟩, ⟨4, 2⟩, ⟨1, 0⟩⟩ ∧
    ((BoxCommand.mk .Box ⟨0, 0⟩ ⟨0, 0⟩ ⟨1, 0⟩).read (IStream.ofString (bytes "B 4X2 1 1 ;"))
        ⟨⟨0, 0⟩, ⟨0, 0⟩, 0, 0⟩).1 = ⟨.Box, ⟨0, 0⟩, ⟨4, 0⟩, ⟨0, 0⟩⟩ ∧
    ((BoxCommand.mk .Box ⟨0, 0⟩ ⟨0, 0⟩ ⟨1, 0⟩).read (IStream.ofString (bytes "B4 2 1 1;"))
        ⟨⟨0, 0⟩, ⟨0, 0⟩, 0, 0⟩).1 = ⟨.Box, ⟨1, 0⟩, ⟨2, 1⟩, ⟨0, 0⟩⟩ := by
  simp only [run_eq_reached]
  decide

/-- C18, amended: `BoxCommand::read` tolerates white space. A Box text, with or without
rotation, whose tokens are separated by one or more bytes of white space each,
is parsed to the same command, so the same size, position and rotation, as the
canonical text with single spaces and the same numbers (numbers that
`unsigned long int` and `long int` hold). -/
theorem BoxCommand.read_white_space_separators (command : BoxCommand) (locals : BoxLocals)
    (s1 s2 s3 s4 s5 s6 s7 : List Byte) (w h : Nat) (x y rx ry : Int)
    (hs : isSeparation s1 ∧ isSeparation s2 ∧ isSeparation s3 ∧ isSeparation s4 ∧
      isSeparation s5 ∧ isSeparation s6 ∧ isSeparation s7)
    (hsize : w ≤ ULONG_MAX ∧ h ≤ ULONG_MAX)
    (hposition : (LONG_MIN ≤ x ∧ x ≤ LONG_MAX) ∧ (LONG_MIN ≤ y ∧ y ≤ LONG_MAX))
    (hrotation : (LONG_MIN ≤ rx ∧ rx ≤ LONG_MAX) ∧ (LONG_MIN ≤ ry ∧ ry ≤ LONG_MAX)) :
    (command.read (IStream.ofString (boxTextSpaced s1 s2 s3 s4 s5 w h x y)) locals).1 =
      (command.read (IStream.ofString (boxText w h x y)) locals).1 ∧
    (command.read
        (IStream.ofString (boxRotationTextSpaced s1 s2 s3 s4 s5 s6 s7 w h x y rx ry))
        locals).1 =
      (command.read (IStream.ofString (boxRotationText w h x y rx ry)) locals).1 := by
  obtain ⟨h1, h2, h3, h4, h5, h6, h7⟩ := hs
  rw [BoxCommand.read_boxTextSpaced command locals s1 s2 s3 s4 s5 w h x y h1 h2 h3 h4 h5
      hsize.1 hsize.2 hposition.1 hposition.2,
    BoxCommand.read_boxText command locals w h x y hsize.1 hsize.2 hposition.1 hposition.2,
    BoxCommand.read_boxRotationTextSpaced command locals s1 s2 s3 s4 s5 s6 s7 w h x y rx ry
      h1 h2 h3 h4 h5 h6 h7 hsize.1 hsize.2 hposition.1 hposition.2 hrotation.1 hrotation.2,
    BoxCommand.read_boxRotationText command locals w h x y rx ry hsize.1 hsize.2
      hposition.1 hposition.2 hrotation.1 hrotation.2]
  exact ⟨rfl, rfl⟩

set_option maxRecDepth 100000 in
/-- The instance of C18, amended, at "B  4\t2\n1 -1 \t;" and "B  4\t2\n1 -1 \t0  1\n;"
(two spaces, a tab, a new line, a space, a space and a tab, two spaces, a new
line as separators). -/
theorem BoxCommand.read_white_space_separators_witness :
    boxTextSpaced [32, 32] [9] [10] [32] [32, 9] 4 2 1 (-1) = bytes "B  4\t2\n1 -1 \t;" ∧
    boxRotationTextSpaced [32, 32] [9] [10] [32] [32, 9] [32, 32] [10] 4 2 1 (-1) 0 1 =
      bytes "B  4\t2\n1 -1 \t0  1\n;" ∧
    ((BoxCommand.mk .Box ⟨0, 0⟩ ⟨0, 0⟩ ⟨7, 7⟩).read
        (IStream.ofString (boxTextSpaced [32, 32] [9] [10] [32] [32, 9] 4 2 1 (-1)))
        ⟨⟨0, 0⟩, ⟨0, 0⟩, 0, 0⟩).1 =
      ((BoxCommand.mk .Box ⟨0, 0⟩ ⟨0, 0⟩ ⟨7, 7⟩).read
        (IStream.ofString (boxText 4 2 1 (-1))) ⟨⟨0, 0⟩, ⟨0, 0⟩, 0, 0⟩).1 ∧
    ((BoxCommand.mk .Box ⟨0, 0⟩ ⟨0, 0⟩ ⟨7, 7⟩).read
        (IStream.ofString
          (boxRotationTextSpaced [32, 32] [9] [10] [32] [32, 9] [32, 32] [10] 4 2 1 (-1) 0 1))
        ⟨⟨0, 0⟩, ⟨0, 0⟩, 0, 0⟩).1 =
      ((BoxCommand.mk .Box ⟨0, 0⟩ ⟨0, 0⟩ ⟨7, 7⟩).read
        (IStream.ofString (boxRotationText 4 2 1 (-1) 0 1)) ⟨⟨0, 0⟩, ⟨0, 0⟩, 0, 0⟩).1 :=
  ⟨by decide, by decide,
    BoxCommand.read_white_space_separators ⟨.Box, ⟨0, 0⟩, ⟨0, 0⟩, ⟨7, 7⟩⟩
      ⟨⟨0, 0⟩, ⟨0, 0⟩, 0, 0⟩ [32, 32] [9] [10] [32] [32, 9] [32, 32] [10] 4 2 1 (-1) 0 1
      (by unfold isSeparation; decide) (by decide) (by decide) (by decide)⟩

set_option maxRecDepth 100000 in
theorem calls_polygon_closed :
    ∀ c ∈ CIFFSM.calls, (2 ≤ c.input_state ∧ c.input_state ≤ 13) →
      (2 ≤ c.output_state ∧ c.output_state ≤ 13) ∨ c.output_state = 1 := by
  decide

set_option maxRecDepth 100000 in
theorem calls_box_closed :
    ∀ c ∈ CIFFSM.calls, (14 ≤ c.input_state ∧ c.input_state ≤ 30) →
      (14 ≤ c.output_state ∧ c.output_state ≤ 30) ∨ c.output_state = 1 := by
  decide

set_option maxRecDepth 100000 in
theorem calls_polygon_entry :
    ∀ c ∈ CIFFSM.calls, ¬ (2 ≤ c.input_state ∧ c.input_state ≤ 13) →
      (2 ≤ c.output_state ∧ c.output_state ≤ 13) →
      c.input_state = 1 ∧ c.output_state = 2 ∧ ∀ b : Byte, c.covers b = true → b = 80 := by
  decide

set_option maxRecDepth 100000 in
theorem calls_box_entry :
    ∀ c ∈ CIFFSM.calls, ¬ (14 ≤ c.input_state ∧ c.input_state ≤ 30) →
      (14 ≤ c.output_state ∧ c.output_state ≤ 30) →
      c.input_state = 1 ∧ c.output_state = 14 ∧ ∀ b : Byte, c.covers b = true → b = 66 := by
  decide

set_option maxRecDepth 100000 in
/-- C21: the polygon states 2..13 and the box states 14..30 are closed and disjoint. Every
configured transition from a state in 2..13 leads to a state in 2..13 or to
state 1, every one from a state in 14..30 to a state in 14..30 or to state 1,
and the only transitions that enter these ranges from a state outside them are
1 -'P'-> 2 and 1 -'B'-> 14. -/
theorem polygon_box_ranges_closed :
    (∀ (q : Int) (b : Byte), (2 ≤ q ∧ q ≤ 13) → CIFFSM.new.next q b ≠ -1 →
      (2 ≤ CIFFSM.new.next q b ∧ CIFFSM.new.next q b ≤ 13) ∨ CIFFSM.new.next q b = 1) ∧
    (∀ (q : Int) (b : Byte), (14 ≤ q ∧ q ≤ 30) → CIFFSM.new.next q b ≠ -1 →
      (14 ≤ CIFFSM.new.next q b ∧ CIFFSM.new.next q b ≤ 30) ∨ CIFFSM.new.next q b = 1) ∧
    (∀ (q : Int) (b : Byte), ¬ (2 ≤ q ∧ q ≤ 13) →
      (2 ≤ CIFFSM.new.next q b ∧ CIFFSM.new.next q b ≤ 13) →
      q = 1 ∧ b = 80 ∧ CIFFSM.new.next q b = 2) ∧
    (∀ (q : Int) (b : Byte), ¬ (14 ≤ q ∧ q ≤ 30) →
      (14 ≤ CIFFSM.new.next q b ∧ CIFFSM.new.next q b ≤ 30) →
      q = 1 ∧ b = 66 ∧ CIFFSM.new.next q b = 14) ∧
    CIFFSM.new.next 1 80 = 2 ∧ CIFFSM.new.next 1 66 = 14 := by
  simp only [CIFFSM.next_new]
  refine ⟨?_, ?_, ?_, ?_, by decide, by decide⟩
  · intro q b hq hne
    rcases delta_eq_error_or_mem q b with h | ⟨c, hc, h1, _, h3⟩
    · exact absurd h hne
    · rw [h3]; exact calls_polygon_closed c hc (h1 ▸ hq)
  · intro q b hq hne
    rcases delta_eq_error_or_mem q b with h | ⟨c, hc, h1, _, h3⟩
    · exact absurd h hne
    · rw [h3]; exact calls_box_closed c hc (h1 ▸ hq)
  · intro q b hq hin
    rcases delta_eq_error_or_mem q b with h | ⟨c, hc, h1, h2, h3⟩
    · rw [h] at hin; omega
    · rw [h3] at hin ⊢
      obtain ⟨e1, e2, e3⟩ := calls_polygon_entry c hc (h1 ▸ hq) hin
      exact ⟨h1.trans e1, e3 b h2, e2⟩
  · intro q b hq hin
    rcases delta_eq_error_or_mem q b with h | ⟨c, hc, h1, h2, h3⟩
    · rw [h] at hin; omega
    · rw [h3] at hin ⊢
      obtain ⟨e1, e2, e3⟩ := calls_box_entry c hc (h1 ▸ hq) hin
      exact ⟨h1.trans e1, e3 b h2, e2⟩

set_option maxRecDepth 100000 in
theorem calls_targets_wired :
    ∀ c ∈ CIFFSM.calls, (1 ≤ c.output_state ∧ c.output_state ≤ 30) ∨
      c.output_state ∈ [(31 : Int), 40, 54, 57, 70, 88, 89] := by
  decide

theorem delta_wired (q : Int) (b : Byte) :
    delta q b = -1 ∨ (1 ≤ delta q b ∧ delta q b ≤ 30) ∨
      delta q b ∈ [(31 : Int), 40, 54, 57, 70, 88, 89] := by
  rcases delta_eq_error_or_mem q b with h | ⟨c, hc, _, _, h3⟩
  · exact Or.inl h
  · rw [h3]; exact Or.inr (calls_targets_wired c hc)

theorem reached_wired (s : List Byte) (q : Int)
    (hq : q = -1 ∨ (1 ≤ q ∧ q ≤ 30) ∨ q ∈ [(31 : Int), 40, 54, 57, 70, 88, 89]) :
    reached q s = -1 ∨ (1 ≤ reached q s ∧ reached q s ≤ 30) ∨
      reached q s ∈ [(31 : Int), 40, 54, 57, 70, 88, 89] := by
  induction s generalizing q with
  | nil => exact hq
  | cons b s ih => rw [reached_cons]; exact ih _ (delta_wired q b)

/-- C25: with the grammar the constructor wires, the accepting states are unreachable.
For every byte sequence the engine, started in state 1, is at the error marker or
in one of the states 1..30, 31, 40, 54, 57, 70, 88, 89, never in 91 or 92; so
`validateSintax` returns `IncorrectInputFile` or `IncompleteInputFile`, never
`AllOk`. -/
theorem accepting_states_unreachable (s : List Byte) :
    (run 1 s = -1 ∨ (1 ≤ run 1 s ∧ run 1 s ≤ 30) ∨
      run 1 s ∈ [(31 : Int), 40, 54, 57, 70, 88, 89]) ∧
    run 1 s ≠ 91 ∧ run 1 s ≠ 92 ∧
    (validateSintax s).status ≠ .AllOk ∧
    ((validateSintax s).status = .IncorrectInputFile ∨
      (validateSintax s).status = .IncompleteInputFile) := by
  simp only [run_eq_reached, validateSintax_eq_closed]
  have h := reached_wired s 1 (Or.inr (Or.inl ⟨le_refl _, by decide⟩))
  have h91 : reached 1 s ≠ 91 := by
    intro e; rw [e] at h; revert h; decide
  have h92 : reached 1 s ≠ 92 := by
    intro e; rw [e] at h; revert h; decide
  have hok : (validateClosed s).status ≠ .AllOk := by
    intro e
    rcases (validateClosed_status_allOk s).1 e with e2 | e2
    · exact h91 e2
    · exact h92 e2
  refine ⟨h, h91, h92, hok, ?_⟩
  rcases validateClosed_status_cases s with h3 | h3 | h3
  · exact Or.inl h3
  · exact absurd h3 hok
  · exact Or.inr h3

/-! ## Polygons and boxes in the grammar: claims C22, C23 and C26 -/

set_option maxRecDepth 100000 in
theorem polygon_digitSteps :
    digitSteps [(2, 4), (3, 4), (4, 4), (5, 7), (6, 7), (7, 7), (8, 10), (9, 10), (10, 10),
      (11, 13), (12, 13), (13, 13)] := by
  unfold digitSteps
  simp only [delta_eq_deltaOf]
  decide

theorem polygon_step (q q2 : Int)
    (h : (q, q2) ∈ [((2 : Int), (4 : Int)), (3, 4), (4, 4), (5, 7), (6, 7), (7, 7), (8, 10),
      (9, 10), (10, 10), (11, 13), (12, 13), (13, 13)]) :
    ∀ b : Byte, isDigitByte b = true → delta q b = q2 :=
  polygon_digitSteps (q, q2) h

theorem reached_2_number (x : Int) : reached 2 (printLong x) = 4 :=
  reached_printLong 2 3 4 x (by decide) (polygon_step 3 4 (by decide))
    (polygon_step 2 4 (by decide)) (polygon_step 4 4 (by decide))

theorem reached_5_number (x : Int) : reached 5 (printLong x) = 7 :=
  reached_printLong 5 6 7 x (by decide) (polygon_step 6 7 (by decide))
    (polygon_step 5 7 (by decide)) (polygon_step 7 7 (by decide))

theorem reached_8_number (x : Int) : reached 8 (printLong x) = 10 :=
  reached_printLong 8 9 10 x (by decide) (polygon_step 9 10 (by decide))
    (polygon_step 8 10 (by decide)) (polygon_step 10 10 (by decide))

theorem reached_11_number (x : Int) : reached 11 (printLong x) = 13 :=
  reached_printLong 11 12 13 x (by decide) (polygon_step 12 13 (by decide))
    (polygon_step 11 13 (by decide)) (polygon_step 13 13 (by decide))

/-- The text "P x1 y1" leads from state 1 to state 7. -/
theorem reached_polygon_one_point (p : Point) :
    reached 1 (bytes "P" ++ bytes " " ++ printLong p.x ++ bytes " " ++ printLong p.y) = 7 := by
  have e1 : reached 1 (bytes "P") = 2 := by decide
  have e2 : reached 2 (bytes " ") = 2 := by decide
  have e3 : reached 4 (bytes " ") = 5 := by decide
  simp only [reached_append, e1, e2, reached_2_number, e3, reached_5_number]

/-- The text "P x1 y1 x2 y2" leads from state 1 to state 13. -/
theorem reached_polygon_two_points (p1 p2 : Point) :
    reached 1 (bytes "P" ++ bytes " " ++ printLong p1.x ++ bytes " " ++ printLong p1.y ++
      bytes " " ++ printLong p2.x ++ bytes " " ++ printLong p2.y) = 13 := by
  have e1 : reached 7 (bytes " ") = 8 := by decide
  have e2 : reached 10 (bytes " ") = 11 := by decide
  rw [reached_append, reached_append, reached_append, reached_append,
    reached_polygon_one_point, e1, reached_8_number, e2, reached_11_number]

theorem polygonText_one_point (p : Point) :
    polygonText [p] =
      bytes "P" ++ bytes " " ++ printLong p.x ++ bytes " " ++ printLong p.y ++ bytes " ;" := by
  simp [polygonText, pointsText, List.append_assoc]

theorem polygonText_two_points (p1 p2 : Point) :
    polygonText [p1, p2] =
      bytes "P" ++ bytes " " ++ printLong p1.x ++ bytes " " ++ printLong p1.y ++
        bytes " " ++ printLong p2.x ++ bytes " " ++ printLong p2.y ++ bytes " ;" := by
  simp [polygonText, pointsText, List.append_assoc]

set_option maxRecDepth 100000 in
/-- C22, as stated, fails: "P 1 2 ;" (one point) and "P 1 2 3 4 ;" (two points) lead the
engine from state 1 back to state 1 without error: `validateSintax` looks up
every byte and returns `IncompleteInputFile` in state 1. -/
theorem polygon_fewer_than_three_points_accepted :
    polygonText [⟨1, 2⟩] = bytes "P 1 2 ;" ∧
    polygonText [⟨1, 2⟩, ⟨3, 4⟩] = bytes "P 1 2 3 4 ;" ∧
    run 1 (bytes "P 1 2 ;") = 1 ∧ run 1 (bytes "P 1 2 3 4 ;") = 1 ∧
    validateSintax (bytes "P 1 2 ;") =
      { status := .IncompleteInputFile, message_state := none, message_char := none,
        jump_state := 1, lookups := 7 } ∧
    validateSintax (bytes "P 1 2 3 4 ;") =
      { status := .IncompleteInputFile, message_state := none, message_char := none,
        jump_state := 1, lookups := 11 } := by
  simp only [run_eq_reached, validateSintax_eq_closed]
  decide

set_option maxRecDepth 100000 in
/-- C22, amended: the polygon states require one point, not three. Every polygon text
with one point or with two points leads the engine from state 1 back to state 1
at the final ';' and no prefix of it meets the error marker; the text without a
point, "P ;", meets the error marker at the ';' (in state 2). -/
theorem polygon_minimum_one_point :
    (∀ p : Point, run 1 (polygonText [p]) = 1 ∧
      ∀ k, run 1 ((polygonText [p]).take k) ≠ -1) ∧
    (∀ p1 p2 : Point, run 1 (polygonText [p1, p2]) = 1 ∧
      ∀ k, run 1 ((polygonText [p1, p2]).take k) ≠ -1) ∧
    polygonText [] = bytes "P ;" ∧ run 1 (bytes "P ") = 2 ∧ run 1 (bytes "P ;") = -1 := by
  have e1 : reached 7 (bytes " ;") = 1 := by decide
  have e2 : reached 13 (bytes " ;") = 1 := by decide
  have h1 : ∀ p : Point, reached 1 (polygonText [p]) = 1 := fun p => by
    rw [polygonText_one_point, reached_append, reached_polygon_one_point, e1]
  have h2 : ∀ p1 p2 : Point, reached 1 (polygonText [p1, p2]) = 1 := fun p1 p2 => by
    rw [polygonText_two_points, reached_append, reached_polygon_two_points, e2]
  simp only [run_eq_reached]
  refine ⟨fun p => ⟨h1 p, fun k => ?_⟩, fun p1 p2 => ⟨h2 p1 p2, fun k => ?_⟩, by decide,
    by decide, by decide⟩
  · exact reached_take_ne_error _ 1 k (by rw [h1 p]; decide)
  · exact reached_take_ne_error _ 1 k (by rw [h2 p1 p2]; decide)

set_option maxRecDepth 100000 in
theorem box_size_states :
    (∀ q ∈ [(14 : Int), 15, 16, 17], delta q 45 = -1) ∧
    (∀ b : Byte, Transition.member .BlankChar b = true → delta 14 b = 14) ∧
    (∀ b : Byte, Transition.member .SeparatorChar b = true → delta 15 b = 16) ∧
    (∀ b : Byte, Transition.member .SeparatorChar b = true → delta 16 b = 16) := by
  simp only [delta_eq_deltaOf]
  decide

theorem reached_box_blanks (s1 : List Byte)
    (h1 : ∀ b ∈ s1, Transition.member .BlankChar b = true) :
    reached 1 (bytes "B" ++ s1) = 14 := by
  have e : reached 1 (bytes "B") = 14 := by decide
  rw [reached_append, e]
  exact reached_loop 14 _ s1 h1 box_size_states.2.1

theorem reached_box_width (s1 s2 : List Byte) (w : Nat)
    (h1 : ∀ b ∈ s1, Transition.member .BlankChar b = true)
    (h2 : ∀ b ∈ s2, Transition.member .SeparatorChar b = true) :
    reached 1 (bytes "B" ++ s1 ++ printULong w ++ s2) = 15 ∨
      reached 1 (bytes "B" ++ s1 ++ printULong w ++ s2) = 16 := by
  rw [reached_append, reached_append, reached_box_blanks s1 h1, reached_14_number]
  cases s2 with
  | nil => exact Or.inl rfl
  | cons b s2 =>
    right
    rw [reached_cons, box_size_states.2.2.1 b (h2 b (List.mem_cons_self _ _))]
    exact reached_loop 16 _ s2 (fun c hc => h2 c (List.mem_cons_of_mem _ hc))
      box_size_states.2.2.2

theorem reached_minus_error (q : Int) (rest : List Byte) (h : delta q 45 = -1) :
    reached q ([45] ++ rest) = -1 := by
  rw [List.singleton_append, reached_cons, h, reached_error]

set_option maxRecDepth 100000 in
/-- C23: the box states admit no sign on the width and on the height. States 14, 15, 16
and 17 have no transition on '-'; a '-' where the width starts (after "B" and
blanks, state 14) or where the height starts (after the width and separators,
state 15 or 16) meets the error marker, whatever follows. On the four
coordinates of position and rotation a leading '-' is accepted: every text
"B w h x y ;" and "B w h x y rx ry ;" leads back to state 1, the negative
numbers being written with a leading '-'. -/
theorem box_size_without_sign :
    (∀ q ∈ [(14 : Int), 15, 16, 17], CIFFSM.new.next q 45 = -1) ∧
    (∀ s1 rest : List Byte, (∀ b ∈ s1, Transition.member .BlankChar b = true) →
      run 1 (bytes "B" ++ s1) = 14 ∧ run 1 (bytes "B" ++ s1 ++ ([45] ++ rest)) = -1) ∧
    (∀ (s1 s2 rest : List Byte) (w : Nat),
      (∀ b ∈ s1, Transition.member .BlankChar b = true) →
      (∀ b ∈ s2, Transition.member .SeparatorChar b = true) →
      (run 1 (bytes "B" ++ s1 ++ printULong w ++ s2) = 15 ∨
        run 1 (bytes "B" ++ s1 ++ printULong w ++ s2) = 16) ∧
      run 1 (bytes "B" ++ s1 ++ printULong w ++ s2 ++ ([45] ++ rest)) = -1) ∧
    (CIFFSM.new.next 18 45 = 19 ∧ CIFFSM.new.next 21 45 = 22 ∧ CIFFSM.new.next 24 45 = 25 ∧
      CIFFSM.new.next 27 45 = 28) ∧
    (∀ n : Nat, printLong (-((n : Int) + 1)) = 45 :: printULong (n + 1)) ∧
    (∀ (w h : Nat) (x y rx ry : Int),
      run 1 (boxText w h x y) = 1 ∧ run 1 (boxRotationText w h x y rx ry) = 1) := by
  simp only [CIFFSM.next_new, run_eq_reached]
  refine ⟨box_size_states.1, ?_, ?_, by decide, ?_, ?_⟩
  · intro s1 rest h1
    refine ⟨reached_box_blanks s1 h1, ?_⟩
    rw [reached_append, reached_box_blanks s1 h1]
    exact reached_minus_error 14 rest (box_size_states.1 14 (by decide))
  · intro s1 s2 rest w h1 h2
    refine ⟨reached_box_width s1 s2 w h1 h2, ?_⟩
    rw [reached_append]
    rcases reached_box_width s1 s2 w h1 h2 with h | h
    · rw [h]; exact reached_minus_error 15 rest (box_size_states.1 15 (by decide))
    · rw [h]; exact reached_minus_error 16 rest (box_size_states.1 16 (by decide))
  · intro n
    have hneg : -((n : Int) + 1) < 0 := by omega
    have habs : (-((n : Int) + 1)).natAbs = n + 1 := by omega
    simp only [printLong, hneg, if_true, habs]
  · intro w h x y rx ry
    have e1 : reached 23 (bytes " ;") = 1 := by decide
    have e2 : reached 29 (bytes " ;") = 1 := by decide
    constructor
    · unfold boxText
      rw [reached_append, reached_box_position, e1]
    · unfold boxRotationText
      rw [reached_append, reached_box_rotation, e2]

set_option maxRecDepth 100000 in
/-- C26 (evaluation of the code): the engine accepts a polygon span with an odd number of
integers. "P 1 2 3 4 5 ;" holds five integers, its only ';' is its last byte, and
it leads from state 1 back to state 1 without error (`validateSintax` looks up
its 13 bytes and ends in state 1): after the second point the separator leads
from state 13 to the digit state 7, where "5" is read as more digits of a second
coordinate. -/
theorem polygon_odd_integers_accepted :
    countIntegers false (bytes "P 1 2 3 4 5 ;") = 5 ∧ 5 % 2 = 1 ∧
    (bytes "P 1 2 3 4 5 ;").indexOf 59 = 12 ∧ (bytes "P 1 2 3 4 5 ;").length = 13 ∧
    run 1 (bytes "P 1 2 3 4") = 13 ∧ run 1 (bytes "P 1 2 3 4 ") = 7 ∧
    run 1 (bytes "P 1 2 3 4 5") = 7 ∧
    run 1 (bytes "P 1 2 3 4 5 ;") = 1 ∧
    validateSintax (bytes "P 1 2 3 4 5 ;") =
      { status := .IncompleteInputFile, message_state := none, message_char := none,
        jump_state := 1, lookups := 13 } := by
  simp only [run_eq_reached, validateSintax_eq_closed]
  decide

/-! ## The constructors of BoxCommand: claim C24 -/

theorem BoxCommand.read_overwrites (command1 command2 : BoxCommand) (input_stream : IStream)
    (locals : BoxLocals) (h : command1.command_type = command2.command_type) :
    (command1.read input_stream locals).1 = (command2.read input_stream locals).1 := by
  unfold BoxCommand.read
  simp only []
  split <;> simp [h]

set_option maxRecDepth 100000 in
/-- C24 (evaluation of the code): `read` overwrites the size, the position and the rotation
whatever the command held, and `BoxCommand ( s )` is `BoxCommand ( )` followed by
`read` of `s` when the uninitialised locals `x` and `y` of the two calls of `read`
hold the same values. They need not: on "B 4 a 1 1 ;" the extraction fails
before `y` is assigned, and the rotation is (0, `y`) with whatever `y` held, here
(0, 0) for one construction and (0, 7) for the other. -/
theorem BoxCommand.ofString_uninitialised_rotation :
    (∀ (command1 command2 : BoxCommand) (input_stream : IStream) (locals : BoxLocals),
      command1.command_type = command2.command_type →
      (command1.read input_stream locals).1 = (command2.read input_stream locals).1) ∧
    (∀ (s : List Byte) (locals : BoxLocals),
      BoxCommand.ofString s locals =
        ((BoxCommand.new locals.position locals.size).read (IStream.ofString s) locals).1) ∧
    BoxCommand.ofString (bytes "B 4 a 1 1 ;") ⟨⟨0, 0⟩, ⟨0, 0⟩, 0, 0⟩ =
      ⟨.Box, ⟨0, 0⟩, ⟨4, 0⟩, ⟨0, 0⟩⟩ ∧
    ((BoxCommand.new ⟨0, 0⟩ ⟨0, 0⟩).read (IStream.ofString (bytes "B 4 a 1 1 ;"))
        ⟨⟨0, 0⟩, ⟨0, 0⟩, 0, 7⟩).1 = ⟨.Box, ⟨0, 0⟩, ⟨4, 0⟩, ⟨0, 7⟩⟩ ∧
    (BoxCommand.ofString (bytes "B 4 a 1 1 ;") ⟨⟨0, 0⟩, ⟨0, 0⟩, 0, 0⟩).box_rotation ≠
      ((BoxCommand.new ⟨0, 0⟩ ⟨0, 0⟩).read (IStream.ofString (bytes "B 4 a 1 1 ;"))
        ⟨⟨0, 0⟩, ⟨0, 0⟩, 0, 7⟩).1.box_rotation := by
  refine ⟨BoxCommand.read_overwrites, ?_, by decide, by decide, by decide⟩
  intro s locals
  exact BoxCommand.read_overwrites _ _ _ _ rfl

/-! ## The order of the calls of add: claim C27 -/

set_option maxRecDepth 100000 in
theorem calls_pairwise_disjoint :
    CIFFSM.calls.Pairwise (fun c d => c.input_state = d.input_state →
      ∀ b : Byte, ¬ (c.covers b = true ∧ d.covers b = true)) := by
  decide

theorem filter_covering_length (l : List CIFFSM.Call) (q : Int) (b : Byte)
    (hl : l.Pairwise (fun c d => c.input_state = d.input_state →
      ∀ b : Byte, ¬ (c.covers b = true ∧ d.covers b = true))) :
    (l.filter (fun c => decide (c.input_state = q) && c.covers b)).length ≤ 1 := by
  induction l with
  | nil => simp
  | cons c l ih =>
    rw [List.pairwise_cons] at hl
    by_cases hc : (decide (c.input_state = q) && c.covers b) = true
    · rw [List.filter_cons, if_pos hc]
      have hnil : l.filter (fun c => decide (c.input_state = q) && c.covers b) = [] := by
        rw [List.filter_eq_nil_iff]
        intro d hd hd2
        simp only [Bool.and_eq_true, decide_eq_true_eq] at hc hd2
        exact hl.1 d hd (hc.1.trans hd2.1.symm) b ⟨hc.2, hd2.2⟩
      rw [hnil]; simp
    · rw [List.filter_cons, if_neg hc]
      exact ih hl.2

theorem entryAfter_filter_covering (n q : Int) (b : Byte) (l : List CIFFSM.Call) (e : Int) :
    entryAfter n q b (l.filter (fun c => decide (c.input_state = q) && c.covers b)) e =
      entryAfter n q b l e := by
  induction l generalizing e with
  | nil => rfl
  | cons c l ih =>
    have hstep : ∀ (l2 : List CIFFSM.Call) (e2 : Int), entryAfter n q b (c :: l2) e2 =
        entryAfter n q b l2
          (if q = c.input_state ∧ 1 ≤ q ∧ q ≤ n ∧ c.covers b = true then c.output_state
            else e2) := fun _ _ => rfl
    by_cases hc : (decide (c.input_state = q) && c.covers b) = true
    · rw [List.filter_cons, if_pos hc, hstep, hstep, ih]
    · rw [List.filter_cons, if_neg hc, ih, hstep]
      have : ¬ (q = c.input_state ∧ 1 ≤ q ∧ q ≤ n ∧ c.covers b = true) := by
        intro h
        apply hc
        simp only [Bool.and_eq_true, decide_eq_true_eq]
        exact ⟨h.1.symm, h.2.2.2⟩
      rw [if_neg this]

theorem eq_of_perm_of_length_le_one (l1 l2 : List CIFFSM.Call) (h : l1.Perm l2)
    (h2 : l2.length ≤ 1) : l1 = l2 := by
  match l2, h, h2 with
  | [], h, _ => exact List.Perm.eq_nil h
  | [a], h, _ => exact List.perm_singleton.1 h
  | _ :: _ :: _, _, h2 => simp at h2

set_option maxRecDepth 100000 in
/-- C27: the construction of the grammar has no conflict. Two calls of `add` of the
constructor for the same state never cover the same byte (and inside a call the
two groups of `SeparatorChar`, `UpperChar` and `BlankChar`, share no byte), so
each entry `(state, byte)` is assigned by at most one call; hence the calls
performed in any other order build an engine with the same transitions. -/
theorem construction_conflict_free :
    CIFFSM.calls.Pairwise (fun c d => c.input_state = d.input_state →
      ∀ b : Byte, ¬ (c.covers b = true ∧ d.covers b = true)) ∧
    (∀ b : Byte, ¬ (Transition.member .UpperChar b = true ∧
      Transition.member .BlankChar b = true)) ∧
    (∀ (q : Int) (b : Byte),
      (CIFFSM.calls.filter (fun c => decide (c.input_state = q) && c.covers b)).length ≤ 1) ∧
    (∀ l : List CIFFSM.Call, l.Perm CIFFSM.calls → ∀ (q : Int) (b : Byte),
      (l.foldl CIFFSM.call (FiniteStateMachine.new 89)).next q b = CIFFSM.new.next q b) := by
  refine ⟨calls_pairwise_disjoint, by decide,
    fun q b => filter_covering_length _ q b calls_pairwise_disjoint, ?_⟩
  intro l hl q b
  rw [CIFFSM.next_foldl_call, FiniteStateMachine.next_new_empty, CIFFSM.next_new]
  have hcount : (FiniteStateMachine.new 89).fsm_state_count = 89 := rfl
  rw [hcount]
  unfold delta
  rw [← entryAfter_filter_covering 89 q b l, ← entryAfter_filter_covering 89 q b CIFFSM.calls,
    eq_of_perm_of_length_le_one _ _ (hl.filter _)
      (filter_covering_length _ q b calls_pairwise_disjoint)]

end OpenCIF
